import Mathlib

/-!
A shallow embedding of the rusql in-memory relational engine
(`src/definitions.rs`, `src/table.rs`, `src/rusql.rs`, `src/exec.rs`).

Modelling conventions:
* Rust's `BTreeMap<usize, TableRow>` (a table's row store) is an association
  list kept sorted by key via `natInsert`; `Vec` is `List`; `usize`/`int`
  are `Nat`/`Int`.
* Rust panics (`unwrap`, failed `assert!`, out-of-bounds indexing) are
  `Option.none`; fallible operations return `Option`.
* The catalog `BTreeMap<String, Table>` is an association list with
  replace-on-insert (`strInsert`); its iteration order is never observed
  by the executor, so no sortedness is maintained for it.
* The SQL text parser is an external collaborator producing a
  `List RusqlStatement`; `rusql_exec` is modelled on the parsed list.
  The per-row callback passed to `rusql_exec`/`select` is a pure observer
  of the produced result rows and is omitted.
* `expressions.rs` (the `ExpressionEvaluator`, `eval_bool`,
  `expr_to_literal`) is not among the sources; those functions are
  modelled from the spec, constrained by their in-src call shapes, and
  each such definition is marked `Modelled from the spec:` in its doc
  comment.  In particular `expr_to_literal` is called with the
  expression alone, so its model takes no row.
-/

/-- First-match lookup in a `Nat`-keyed association list (`BTreeMap::get`). -/
def natFind {α : Type} (k : Nat) : List (Nat × α) → Option α
  | [] => none
  | (k', v) :: rest => if k = k' then some v else natFind k rest

/-- Sorted insert-or-replace into a `Nat`-keyed association list
(`BTreeMap::insert`): replaces the value at an existing key, otherwise
inserts at the sorted position. -/
def natInsert {α : Type} (k : Nat) (v : α) : List (Nat × α) → List (Nat × α)
  | [] => [(k, v)]
  | (k', v') :: rest =>
    if k < k' then (k, v) :: (k', v') :: rest
    else if k = k' then (k, v) :: rest
    else (k', v') :: natInsert k v rest

/-- Key removal from a `Nat`-keyed association list (`BTreeMap::remove`). -/
def natRemove {α : Type} (k : Nat) (l : List (Nat × α)) : List (Nat × α) :=
  l.filter (fun p => !(p.1 == k))

/-- First-match lookup in a `String`-keyed association list (`BTreeMap::get`). -/
def strFind {α : Type} (k : String) : List (String × α) → Option α
  | [] => none
  | (k', v) :: rest => if k = k' then some v else strFind k rest

/-- Insert-or-replace into a `String`-keyed association list
(`BTreeMap::insert`): replaces the first binding of the key in place,
otherwise appends. -/
def strInsert {α : Type} (k : String) (v : α) : List (String × α) → List (String × α)
  | [] => [(k, v)]
  | (k', v') :: rest =>
    if k = k' then (k, v) :: rest else (k', v') :: strInsert k v rest

/-- Key removal from a `String`-keyed association list (`BTreeMap::remove`). -/
def strRemove {α : Type} (k : String) (l : List (String × α)) : List (String × α) :=
  l.filter (fun p => !(p.1 == k))

/-- From `definitions.rs`: declared column type (informational, not enforced). -/
inductive ColumnType
  | Integer
  | Text
deriving DecidableEq

/-- From `definitions.rs`: column constraints; only `PrimaryKey` exists. -/
inductive ColumnConstraint
  | PrimaryKey
deriving DecidableEq

/-- From `definitions.rs`: tagged literal values. The Rust `Real` variant carries
an `f64`; it is modelled with `Rat`, which is exact on every literal the
engine's claims exercise and preserves the tag-sensitivity of the derived
structural equality (`#[deriving(PartialEq)]`). -/
inductive LiteralValue
  | Integer (i : Int)
  | Text (s : String)
  | Real (r : Rat)
  | Null
deriving DecidableEq

/-- From `definitions.rs`: a column definition. -/
structure ColumnDef where
  name : String
  column_type : Option ColumnType
  column_constraints : List ColumnConstraint
deriving DecidableEq

/-- From `table.rs`: a row is one `LiteralValue` per header entry. -/
abbrev TableRow := List LiteralValue

/-- From `table.rs`: a header is an ordered sequence of column definitions. -/
abbrev TableHeader := List ColumnDef

/-- From `table.rs`: storage keys are `usize`. -/
abbrev PkType := Nat

/-- From `definitions.rs`: a CREATE TABLE definition. The `if_not_exists` flag is
the field consumed by `Rusql::create_table` in `rusql.rs`. -/
structure TableDef where
  table_name : String
  columns : List ColumnDef
  if_not_exists : Bool
deriving DecidableEq

/-- From `definitions.rs`: binary operators; only `Equals` exists. -/
inductive BinaryOperator
  | Equals
deriving DecidableEq

/-- From `definitions.rs`: expression trees. The Rust `BinaryOperator` variant
carries a triple `(op, Box<l>, Box<r>)`, flattened here into three
constructor arguments. -/
inductive Expression
  | LiteralValue (v : LiteralValue)
  | ColumnName (n : String)
  | BinaryOperator (op : BinaryOperator) (l r : Expression)
deriving DecidableEq

/-- From `definitions.rs` / `exec.rs`: a SELECT's projection spec. `exec.rs`
matches both `Asterisk` and an explicit `Expressions` list. -/
inductive ResultColumn
  | Expressions (exprs : List Expression)
  | Asterisk
deriving DecidableEq

/-- From `definitions.rs` / `exec.rs`: a SELECT statement. `exec.rs` consumes
`table_or_subquery` as optional (absence means the source-free
single-empty-row input). -/
structure SelectDef where
  result_column : ResultColumn
  table_or_subquery : Option (List String)
  where_expr : Option Expression
deriving DecidableEq

/-- From `definitions.rs`: the data source of an INSERT. -/
inductive InsertDataSource
  | Values (rows : List (List LiteralValue))
  | Select (sd : SelectDef)
  | DefaultValues
  | Error
deriving DecidableEq

/-- From `definitions.rs`: an INSERT statement. -/
structure InsertDef where
  table_name : String
  column_names : Option (List String)
  data_source : InsertDataSource
deriving DecidableEq

/-- From `definitions.rs`: a DROP TABLE statement. -/
structure DropTableDef where
  name : String
deriving DecidableEq

/-- From `definitions.rs`: the two ALTER TABLE modes. -/
inductive AlterTable
  | RenameTo (new_name : String)
  | AddColumn (cd : ColumnDef)
deriving DecidableEq

/-- From `definitions.rs`: an ALTER TABLE statement. -/
structure AlterTableDef where
  name : String
  mode : AlterTable
deriving DecidableEq

/-- From `definitions.rs`: a DELETE statement. -/
structure DeleteDef where
  name : String
  where_expr : Option Expression
deriving DecidableEq

/-- From `definitions.rs`: an UPDATE statement. -/
structure UpdateDef where
  name : String
  set : List (String × Expression)
  where_expr : Option Expression
deriving DecidableEq

/-- From `definitions.rs`: the closed set of statement kinds. -/
inductive RusqlStatement
  | AlterTable (d : AlterTableDef)
  | CreateTable (d : TableDef)
  | Delete (d : DeleteDef)
  | DropTable (d : DropTableDef)
  | Insert (d : InsertDef)
  | Select (d : SelectDef)
  | Update (d : UpdateDef)
deriving DecidableEq

/-- From `table.rs`: a table is a name, a header, a key-sorted row store, an
optional primary-key column index, and the `max_pk` high-water mark
(a `Cell<usize>` in Rust, a plain field here). -/
structure Table where
  name : String
  header : TableHeader
  data : List (PkType × TableRow)
  pk : Option PkType
  max_pk : PkType
deriving DecidableEq

/-- Modelled from the spec: `LiteralValue::to_uint` is used by
`Table::push_row` but its implementation is not among the sources.  Per the
spec it is the numeric coercion of an `Integer`; its behavior on
non-integer values is explicitly unspecified (spec section 9), and this model
chooses `0` there.  No theorem below depends on the unspecified cases. -/
def LiteralValue.to_uint : LiteralValue → Nat
  | .Integer i => i.toNat
  | _ => 0

/-- From `table.rs` `process_constraints`: scan the header in order; every
`PrimaryKey` constraint overwrites `pk` with that column's index, so the
last declaring column wins. -/
def process_constraints (header : TableHeader) : Option PkType :=
  (header.enum).foldl
    (fun acc ic =>
      ic.2.column_constraints.foldl
        (fun _a c => match c with | ColumnConstraint.PrimaryKey => some ic.1) acc)
    none

/-- From `table.rs` `Table::new`. -/
def Table.new (table_def : TableDef) : Table :=
  { name := table_def.table_name
    header := table_def.columns
    data := []
    pk := process_constraints table_def.columns
    max_pk := 0 }

/-- From `table.rs` `Table::new_result_table`. -/
def Table.new_result_table (header : TableHeader) : Table :=
  { name := "", header := header, data := [], pk := none, max_pk := 0 }

/-- From `table.rs` `get_column_def_by_name`. -/
def Table.get_column_def_by_name (t : Table) (n : String) : Option ColumnDef :=
  t.header.find? (fun cols => cols.name == n)

/-- From `table.rs` `get_column_index`. -/
def Table.get_column_index (t : Table) (n : String) : Option Nat :=
  t.header.findIdx? (fun cols => cols.name == n)

/-- From `table.rs` `has_row`. -/
def Table.has_row (t : Table) (pk : PkType) : Bool :=
  (natFind pk t.data).isSome

/-- From `table.rs` `assert_size` as a proposition: every stored row is exactly
header-width. -/
def Table.SizeOK (t : Table) : Prop :=
  ∀ p ∈ t.data, (Prod.snd p).length = t.header.length

instance (t : Table) : Decidable t.SizeOK := by
  unfold Table.SizeOK; infer_instance

/-- From `table.rs` `add_column`: append the definition to the header and
backfill `Null` into every existing row. -/
def Table.add_column (t : Table) (column_def : ColumnDef) : Table :=
  { t with
    header := t.header ++ [column_def]
    data := t.data.map (fun kr => (kr.1, kr.2 ++ [LiteralValue.Null])) }

/-- From `table.rs` `add_columns`. -/
def Table.add_columns (t : Table) (column_defs : List ColumnDef) : Table :=
  column_defs.foldl Table.add_column t

/-- From `table.rs` `push_row`: with a primary-key column, derive the key from
that cell (`row[i]`, a panic when out of bounds), raise `max_pk` to it, and
store the row at that key, replacing any existing row there; without one,
store under the fresh surrogate key `max_pk + 1`. -/
def Table.push_row (t : Table) (row : TableRow) : Option Table :=
  match t.pk with
  | some i => do
      let c ← row.get? i
      let pk := c.to_uint
      pure { t with max_pk := max t.max_pk pk, data := natInsert pk row t.data }
  | none =>
      pure { t with max_pk := t.max_pk + 1
                    data := natInsert (t.max_pk + 1) row t.data }

/-- From `table.rs` `insert`, the scatter loop: write each supplied value into
the position named by the corresponding column (`get_column_index(...)
.unwrap()`, a panic when the name is absent). -/
def Table.scatter (t : Table) : List (String × LiteralValue) → TableRow → Option TableRow
  | [], row => some row
  | (n, v) :: rest, row =>
    match t.get_column_index n with
    | some j => t.scatter rest (row.set j v)
    | none => none

/-- From `table.rs` `insert`: for each incoming row, with a specified column
list first `assert!` the widths agree, build a header-width all-`Null` row,
scatter the supplied values in, synthesize `max_pk + 1` into a primary-key
cell left `Null`, and `push_row`; without a column list, `push_row` the row
as supplied. -/
def Table.insert (t : Table) (column_data : List TableRow)
    (specified_columns : Option (List String)) : Option Table :=
  column_data.foldlM
    (fun t cd =>
      match specified_columns with
      | some column_names =>
        if column_names.length = cd.length then do
          let row : TableRow := List.replicate t.header.length LiteralValue.Null
          let row ← t.scatter (column_names.zip cd) row
          let row ← match t.pk with
            | some i => do
                let c ← row.get? i
                pure (if c = LiteralValue.Null
                      then row.set i (LiteralValue.Integer (Int.ofNat (t.max_pk + 1)))
                      else row)
            | none => pure row
          t.push_row row
        else none
      | none => t.push_row cd)
    t

/-- From `table.rs` `delete_where`, the kept rows: rows whose predicate is
`false` survive, in order.  The predicate is `Option`-valued because the
callers' closures evaluate expressions that can panic. -/
def keepRows (f : TableRow → Option Bool) : List (PkType × TableRow) →
    Option (List (PkType × TableRow))
  | [] => some []
  | kr :: rest => do
      let b ← f kr.2
      let tail ← keepRows f rest
      pure (if b then tail else kr :: tail)

/-- From `table.rs` `delete_where`: collect the keys of rows where the predicate
holds, then remove them; equivalently, keep exactly the rows where it is
`false`. -/
def Table.delete_where (t : Table) (f : TableRow → Option Bool) : Option Table := do
  let kept ← keepRows f t.data
  pure { t with data := kept }

/-- From `table.rs` `clear`: drop all rows, keep header and pk configuration. -/
def Table.clear (t : Table) : Table :=
  { t with data := [] }

/-- From `table.rs` `get_column` (free function): the cell of the named column,
shifted by an optional positional offset; panics when the name is absent or
the shifted position is out of range. -/
def get_column (n : String) (row : TableRow) (head : TableHeader)
    (offset : Option Nat) : Option LiteralValue := do
  let x := match offset with | some x => x | none => 0
  let i ← head.findIdx? (fun def_ => def_.name == n)
  row.get? (i + x)

/-- Modelled from the spec: the evaluator's result kinds (`ExpressionResult`
in the missing `expressions.rs`) — a boolean, a literal value, or (in
projection-header mode) a column definition. -/
inductive ExpressionResult
  | Value (v : LiteralValue)
  | Boolean (b : Bool)
  | ColumnDef (d : ColumnDef)
deriving DecidableEq

/-- Modelled from the spec: resolve a column name across the ordered list of
source tables contributing to a joined row, "by scanning each contributing
table's header in order and accumulating a positional offset". -/
def resolve_in_tables (n : String) : List Table → Nat → Option Nat
  | [], _ => none
  | t :: ts, off =>
    match t.get_column_index n with
    | some j => some (off + j)
    | none => resolve_in_tables n ts (off + t.header.length)

/-- Modelled from the spec: resolve a column name to a position — through
the joined table list when one was supplied (`with_tables`), otherwise by
searching the evaluator's own header. -/
def resolve_column (tables : Option (List Table)) (header : TableHeader)
    (n : String) : Option Nat :=
  match tables with
  | some ts => resolve_in_tables n ts 0
  | none => header.findIdx? (fun cols => cols.name == n)

/-- Modelled from the spec: `ExpressionEvaluator::eval_expr` from the
missing `expressions.rs`.  A literal evaluates to its value unchanged; a
column name resolves to a position in the (possibly joined) header and
yields the corresponding cell (a panic when unresolvable or out of range);
`Equals` evaluates both operands to values and returns their structural,
type-sensitive equality as a boolean. -/
def eval_expr (row : TableRow) (header : TableHeader)
    (tables : Option (List Table)) : Expression → Option ExpressionResult
  | .LiteralValue v => some (.Value v)
  | .ColumnName n => do
      let i ← resolve_column tables header n
      let v ← row.get? i
      pure (.Value v)
  | .BinaryOperator .Equals l r => do
      let a ← eval_expr row header tables l
      let b ← eval_expr row header tables r
      match a, b with
      | .Value x, .Value y => pure (.Boolean (decide (x = y)))
      | _, _ => none

/-- Modelled from the spec: `eval_bool` — a boolean result is returned as
is; a plain value is treated as `false` rather than a type error (the
deliberate permissive fallback). -/
def eval_bool (row : TableRow) (header : TableHeader)
    (tables : Option (List Table)) (e : Expression) : Option Bool :=
  match eval_expr row header tables e with
  | some (.Boolean b) => some b
  | some _ => some false
  | none => none

/-- Modelled from the spec: `expr_to_literal` is from the absent
`expressions.rs`, but its only in-src call site — UPDATE's SET loop in
`exec.rs`, `row[x] = expr_to_literal(expr)` — passes it the expression
alone, neither the row nor the header.  Its result therefore cannot depend
on the row's (current or original) contents, contrary to the spec's
sequential-evaluation wording for UPDATE (see `C4_counterexample`).  A
literal evaluates to its value; the sources do not determine the remaining
cases, which have no row to read, and this model makes them a panic
(`none`).  Only the row-independence, which holds under any completion,
matters to the theorems below. -/
def expr_to_literal : Expression → Option LiteralValue
  | .LiteralValue v => some v
  | _ => none

/-- Modelled from the spec: projection-header mode
(`with_column_def().eval_expr(...)`) — a direct column reference yields the
source column's definition, found by scanning the joined table list (or the
header when none was supplied); any other expression falls through to plain
evaluation, whose non-`ColumnDef` result the projection loop ignores. -/
def resolve_def_in_tables (n : String) : List Table → Option ColumnDef
  | [] => none
  | t :: ts =>
    match t.get_column_def_by_name n with
    | some d => some d
    | none => resolve_def_in_tables n ts

/-- Modelled from the spec: see `resolve_def_in_tables`. -/
def eval_expr_cd (row : TableRow) (header : TableHeader)
    (tables : Option (List Table)) (e : Expression) : Option ExpressionResult :=
  match e with
  | .ColumnName n =>
      (match tables with
       | some ts => resolve_def_in_tables n ts
       | none => header.find? (fun cols => cols.name == n)).map .ColumnDef
  | e => eval_expr row header tables e

/-- From `rusql.rs`: the catalog — a mapping from table name to `Table`. -/
structure Rusql where
  map : List (String × Table)
deriving DecidableEq

/-- From `rusql.rs` `Rusql::new`. -/
def Rusql.new : Rusql := { map := [] }

/-- From `rusql.rs` `get_table` / `get_mut_table`: lookup by name; `unwrap`
panics when absent. -/
def Rusql.get_table (db : Rusql) (n : String) : Option Table :=
  strFind n db.map

/-- Write-back of a mutably borrowed table (`get_mut_table` in Rust mutates
in place; the model reads, transforms, and re-inserts under the same key). -/
def Rusql.put_table (db : Rusql) (n : String) (t : Table) : Rusql :=
  { map := strInsert n t db.map }

/-- From `rusql.rs` `create_table`: with `if_not_exists`, skip when the name is
present; otherwise build `Table::new` and insert unconditionally,
overwriting silently. -/
def Rusql.create_table (db : Rusql) (table_def : TableDef) : Rusql :=
  if table_def.if_not_exists && (strFind table_def.table_name db.map).isSome
  then db
  else
    let table := Table.new table_def
    { map := strInsert table.name table db.map }

/-- From `rusql.rs` `drop_table`: removing an absent name is a silent no-op. -/
def Rusql.drop_table (db : Rusql) (n : String) : Rusql :=
  { map := strRemove n db.map }

/-- From `rusql.rs` `rename_table`: `remove(old).unwrap()` (a panic when absent)
followed by an insert under the new name. -/
def Rusql.rename_table (db : Rusql) (old_name : String) (new_name : String) :
    Option Rusql :=
  match strFind old_name db.map with
  | some table => some { map := strInsert new_name table (strRemove old_name db.map) }
  | none => none

/-- From `exec.rs` `alter_table`. -/
def alter_table (db : Rusql) (d : AlterTableDef) : Option Rusql :=
  match d.mode with
  | .RenameTo new_name => db.rename_table d.name new_name
  | .AddColumn column_def => do
      let t ← db.get_table d.name
      pure (db.put_table d.name (t.add_column column_def))

/-- From `exec.rs` `delete`: with a WHERE clause delete the rows whose predicate
evaluates true, otherwise clear the whole table. -/
def delete (db : Rusql) (d : DeleteDef) : Option Rusql := do
  let table ← db.get_table d.name
  match d.where_expr with
  | some e => do
      let table ← table.delete_where (fun row => eval_bool row table.header none e)
      pure (db.put_table d.name table)
  | none => pure (db.put_table d.name table.clear)

/-- From `exec.rs` `product`: the left-to-right Cartesian cross product of the
source tables.  Pop the first table; for each of its rows (in key order)
extend the accumulated partial row and recurse on the remaining tables;
with no tables left, push the completed row into the accumulator table. -/
def product : List Table → Table → Option TableRow → Option Table
  | [], input_product, some new_row => input_product.push_row new_row
  | [], input_product, none => some input_product
  | table :: remaining, input_product, new_row_opt =>
      table.data.foldlM
        (fun acc kr => product remaining acc (some (new_row_opt.getD [] ++ kr.2)))
        input_product
termination_by l _ _ => l.length

/-- From `exec.rs` `generate_inputs`: with named source tables, look each up
(a panic when absent), concatenate their headers in listed order, and build
the cross product; with none, a single zero-width row seeds a source-free
projection. -/
def generate_inputs (db : Rusql) (sd : SelectDef) : Option (List Table × Table) :=
  match sd.table_or_subquery with
  | some names => do
      let input_tables ← names.mapM (fun n => db.get_table n)
      let input_header := (input_tables.map Table.header).flatten
      let input_product ← product input_tables (Table.new_result_table input_header) none
      pure (input_tables, input_product)
  | none => do
      let empty_row : TableRow := []
      let input_product ← (Table.new_result_table []).push_row empty_row
      pure (([] : List Table), input_product)

/-- From `exec.rs` `filter_inputs`: with a WHERE expression, delete every joined
row for which `eval_bool` is not true, resolving columns against the full
set of contributing tables. -/
def filter_inputs (input_product : Table) (input_tables : List Table)
    (sd : SelectDef) : Option Table :=
  match sd.where_expr with
  | some e =>
      input_product.delete_where (fun row =>
        (eval_bool row input_product.header (some input_tables) e).map (fun b => !b))
  | none => some input_product

/-- From `exec.rs` `generate_row_from_expressions`, one projection expression:
in header-derivation mode a `ColumnDef` result is appended to the result
header (anything else is ignored); then the expression's plain value, if it
is one, is appended to the output row. -/
def gen_expr_step (row : TableRow) (input_tables : List Table)
    (push_header : Bool) (acc : Table × TableRow) (e : Expression) :
    Option (Table × TableRow) := do
  let (results_table, new_row) := acc
  let results_table ←
    if push_header then
      match eval_expr_cd row results_table.header (some input_tables) e with
      | some (.ColumnDef d) =>
          pure { results_table with header := results_table.header ++ [d] }
      | some _ => pure results_table
      | none => none
    else pure results_table
  match eval_expr row results_table.header (some input_tables) e with
  | some (.Value v) => pure (results_table, new_row ++ [v])
  | some _ => pure (results_table, new_row)
  | none => none

/-- From `exec.rs` `generate_row_from_expressions`: evaluate each projection
expression per surviving row to build the output cells; the output header
is derived only while the result header is still empty (i.e. from the
first row processed). -/
def generate_row_from_expressions (results_table : Table) (row : TableRow)
    (exprs : List Expression) (input_tables : List Table) : Option Table := do
  let push_header := results_table.header.length == 0
  let (results_table, new_row) ←
    exprs.foldlM (gen_expr_step row input_tables push_header) (results_table, [])
  results_table.push_row new_row

/-- From `exec.rs` `generate_result_set`: fold over the filtered input rows in
key order; for `Asterisk` adopt the input header (once, while the result
header is empty) and push each row through unchanged; for an expression
list, project. -/
def generate_result_set (input_product : Table) (input_tables : List Table)
    (sd : SelectDef) : Option Table :=
  input_product.data.foldlM
    (fun results_table kr =>
      match sd.result_column with
      | .Expressions exprs =>
          generate_row_from_expressions results_table kr.2 exprs input_tables
      | .Asterisk =>
          let results_table :=
            if results_table.header.length == 0
            then { results_table with header := input_product.header }
            else results_table
          results_table.push_row kr.2)
    (Table.new_result_table [])

/-- From `exec.rs` `select`: the three-stage pipeline — cross-join input
generation, WHERE filtering, projection.  The per-row callback streams
exactly `results_table.data`'s rows in key order and is omitted here. -/
def select (db : Rusql) (sd : SelectDef) : Option Table := do
  let (input_tables, input_product) ← generate_inputs db sd
  let input_product ← filter_inputs input_product input_tables sd
  generate_result_set input_product input_tables sd

/-- From `exec.rs` `insert` (statement level; named `insert_stmt` here because a
bare `insert` collides with a core typeclass method): a `Values` source
goes through `Table::insert`; a nested `Select`'s materialized rows are
pushed verbatim into the destination; the two other source kinds are
silent no-ops. -/
def insert_stmt (db : Rusql) (d : InsertDef) : Option Rusql :=
  match d.data_source with
  | .Values column_data => do
      let table ← db.get_table d.table_name
      let table ← table.insert column_data d.column_names
      pure (db.put_table d.table_name table)
  | .Select sd => do
      let results_table ← select db sd
      let table ← db.get_table d.table_name
      let table ← results_table.data.foldlM (fun t kr => t.push_row kr.2) table
      pure (db.put_table d.table_name table)
  | .DefaultValues => pure db
  | .Error => pure db

/-- From `exec.rs` `update`, the SET loop on one row: each (column name,
expression) pair in the given order resolves the name in the header
(`position(...).unwrap()`, a panic when absent), computes the assigned
value from the expression alone (`expr_to_literal(expr)` receives no row),
and writes the cell (`row[x] = ...`, a panic when out of range). -/
def applySet (header : TableHeader) (assignments : List (String × Expression))
    (row : TableRow) : Option TableRow :=
  assignments.foldlM
    (fun row ne => do
      let x ← header.findIdx? (fun cols => cols.name == ne.1)
      let v ← expr_to_literal ne.2
      if x < row.length then pure (row.set x v) else none)
    row

/-- From `exec.rs` `update`: for every row (restricted by the WHERE predicate
when present), apply the SET assignments in order, in place. -/
def update (db : Rusql) (d : UpdateDef) : Option Rusql := do
  let table ← db.get_table d.name
  let newData ← table.data.mapM (fun kr =>
    match d.where_expr with
    | some e => do
        let b ← eval_bool kr.2 table.header none e
        if b then do
          let r ← applySet table.header d.set kr.2
          pure (kr.1, r)
        else pure kr
    | none => do
        let r ← applySet table.header d.set kr.2
        pure (kr.1, r))
  pure (db.put_table d.name { table with data := newData })

/-- The per-statement dispatch of `exec.rs` `rusql_exec`'s match, as one
catalog-transforming step (a `Select` is executed for effect-freedom and
its result discarded). -/
def exec_stmt (db : Rusql) : RusqlStatement → Option Rusql
  | .AlterTable d => alter_table db d
  | .CreateTable d => some (db.create_table d)
  | .Delete d => delete db d
  | .DropTable d => some (db.drop_table d.name)
  | .Insert d => insert_stmt db d
  | .Select d => (select db d).map (fun _ => db)
  | .Update d => update db d

/-- From `exec.rs` `rusql_exec`, on the externally parsed statement list: run the
statements in order against the shared catalog; on a `Select`, `return
Some(select(...))` — the select's materialized table is returned at once
and the remaining statements are not reached.  A batch without a `Select`
ends with `None`. -/
def rusql_exec (db : Rusql) : List RusqlStatement → Option (Rusql × Option Table)
  | [] => some (db, none)
  | stmt :: rest =>
    match stmt with
    | .AlterTable d => (alter_table db d).bind (fun db => rusql_exec db rest)
    | .CreateTable d => rusql_exec (db.create_table d) rest
    | .Delete d => (delete db d).bind (fun db => rusql_exec db rest)
    | .DropTable d => rusql_exec (db.drop_table d.name) rest
    | .Insert d => (insert_stmt db d).bind (fun db => rusql_exec db rest)
    | .Select d => (select db d).map (fun t => (db, some t))
    | .Update d => (update db d).bind (fun db => rusql_exec db rest)

/-! ### Association-list lemmas -/

theorem natFind_natInsert_self {α : Type} (k : Nat) (v : α) (l : List (Nat × α)) :
    natFind k (natInsert k v l) = some v := by
  induction l with
  | nil => simp [natInsert, natFind]
  | cons p rest ih =>
    obtain ⟨k', v'⟩ := p
    by_cases h1 : k < k'
    · simp [natInsert, natFind, h1]
    · by_cases h2 : k = k'
      · simp [natInsert, natFind, h1, h2]
      · simp [natInsert, natFind, h1, h2, ih]

theorem natFind_natInsert_ne {α : Type} {k j : Nat} (v : α) (l : List (Nat × α))
    (h : j ≠ k) : natFind j (natInsert k v l) = natFind j l := by
  induction l with
  | nil => simp [natInsert, natFind, h]
  | cons p rest ih =>
    obtain ⟨k', v'⟩ := p
    by_cases h1 : k < k'
    · simp [natInsert, natFind, h1, h]
    · by_cases h2 : k = k'
      · subst h2; simp [natInsert, natFind, h1, h]
      · by_cases h3 : j = k'
        · simp [natInsert, natFind, h1, h2, h3]
        · simp [natInsert, natFind, h1, h2, h3, ih]

theorem natInsert_eq_append {α : Type} (k : Nat) (v : α) (l : List (Nat × α))
    (h : ∀ p ∈ l, p.1 < k) : natInsert k v l = l ++ [(k, v)] := by
  induction l with
  | nil => simp [natInsert]
  | cons p rest ih =>
    obtain ⟨k', v'⟩ := p
    have hk' : k' < k := h (k', v') (by simp)
    have h1 : ¬ k < k' := by omega
    have h2 : ¬ k = k' := by omega
    simp only [natInsert, if_neg h1, if_neg h2, List.cons_append, List.cons.injEq, true_and]
    exact ih (fun p hp => h p (by simp [hp]))

theorem natFind_none_of_keys_lt {α : Type} {k : Nat} {l : List (Nat × α)}
    (h : ∀ p ∈ l, p.1 < k) : natFind k l = none := by
  induction l with
  | nil => rfl
  | cons p rest ih =>
    obtain ⟨k', v'⟩ := p
    have : k' < k := h (k', v') (by simp)
    have hne : ¬ k = k' := by omega
    simp only [natFind, if_neg hne]
    exact ih (fun p hp => h p (by simp [hp]))

theorem length_natInsert_fresh {α : Type} {k : Nat} (v : α) {l : List (Nat × α)}
    (h : natFind k l = none) : (natInsert k v l).length = l.length + 1 := by
  induction l with
  | nil => rfl
  | cons p rest ih =>
    obtain ⟨k', v'⟩ := p
    by_cases h2 : k = k'
    · simp [natFind, h2] at h
    · simp only [natFind, if_neg h2] at h
      by_cases h1 : k < k'
      · simp [natInsert, h1]
      · simp [natInsert, h1, h2, ih h]

theorem mem_natInsert {α : Type} {p : Nat × α} {k : Nat} {v : α}
    {l : List (Nat × α)} (h : p ∈ natInsert k v l) : p = (k, v) ∨ p ∈ l := by
  induction l with
  | nil => simpa [natInsert] using h
  | cons q rest ih =>
    obtain ⟨k', v'⟩ := q
    by_cases h1 : k < k'
    · simp only [natInsert, if_pos h1, List.mem_cons] at h
      rcases h with h | h | h
      · exact Or.inl h
      · exact Or.inr (by simp [h])
      · exact Or.inr (by simp [h])
    · by_cases h2 : k = k'
      · simp only [natInsert, if_neg h1, if_pos h2, List.mem_cons] at h
        rcases h with h | h
        · exact Or.inl h
        · exact Or.inr (by simp [h])
      · simp only [natInsert, if_neg h1, if_neg h2, List.mem_cons] at h
        rcases h with h | h
        · exact Or.inr (by simp [h])
        · rcases ih h with h | h
          · exact Or.inl h
          · exact Or.inr (by simp [h])

theorem strFind_strInsert_self {α : Type} (k : String) (v : α) (l : List (String × α)) :
    strFind k (strInsert k v l) = some v := by
  induction l with
  | nil => simp [strInsert, strFind]
  | cons p rest ih =>
    obtain ⟨k', v'⟩ := p
    by_cases h : k = k'
    · simp [strInsert, strFind, h]
    · simp [strInsert, strFind, h, ih]

theorem strFind_strInsert_ne {α : Type} {k j : String} (v : α) (l : List (String × α))
    (h : j ≠ k) : strFind j (strInsert k v l) = strFind j l := by
  induction l with
  | nil => simp [strInsert, strFind, h]
  | cons p rest ih =>
    obtain ⟨k', v'⟩ := p
    by_cases h1 : k = k'
    · subst h1; simp [strInsert, strFind, h]
    · by_cases h2 : j = k'
      · simp [strInsert, strFind, h1, h2]
      · simp [strInsert, strFind, h1, h2, ih]

theorem strFind_strRemove_self {α : Type} (k : String) (l : List (String × α)) :
    strFind k (strRemove k l) = none := by
  induction l with
  | nil => rfl
  | cons p rest ih =>
    obtain ⟨k', v'⟩ := p
    by_cases h : k' = k
    · simpa [strRemove, h] using ih
    · have hne : k ≠ k' := fun hh => h hh.symm
      simpa [strRemove, h, strFind, hne] using ih

theorem strFind_strRemove_ne {α : Type} {k j : String} (l : List (String × α))
    (h : j ≠ k) : strFind j (strRemove k l) = strFind j l := by
  induction l with
  | nil => rfl
  | cons p rest ih =>
    obtain ⟨k', v'⟩ := p
    by_cases h1 : k' = k
    · subst h1
      simpa [strRemove, strFind, h] using ih
    · by_cases h2 : j = k'
      · simp [strRemove, strFind, h1, h2]
      · simpa [strRemove, strFind, h1, h2] using ih

theorem mem_strInsert {α : Type} {p : String × α} {k : String} {v : α}
    {l : List (String × α)} (h : p ∈ strInsert k v l) : p = (k, v) ∨ p ∈ l := by
  induction l with
  | nil => simpa [strInsert] using h
  | cons q rest ih =>
    obtain ⟨k', v'⟩ := q
    by_cases h1 : k = k'
    · simp only [strInsert, if_pos h1, List.mem_cons] at h
      rcases h with h | h
      · exact Or.inl h
      · exact Or.inr (by simp [h])
    · simp only [strInsert, if_neg h1, List.mem_cons] at h
      rcases h with h | h
      · exact Or.inr (by simp [h])
      · rcases ih h with h | h
        · exact Or.inl h
        · exact Or.inr (by simp [h])

theorem mem_strRemove {α : Type} {p : String × α} {k : String}
    {l : List (String × α)} (h : p ∈ strRemove k l) : p ∈ l :=
  List.mem_of_mem_filter h

/-! ### Table-level helper lemmas -/

/-- The stored rows of a table, in key order. -/
def Table.rows (t : Table) : List TableRow :=
  t.data.map Prod.snd

theorem Table.mem_rows {t : Table} {r : TableRow} :
    r ∈ t.rows ↔ ∃ k, (k, r) ∈ t.data := by
  unfold Table.rows
  constructor
  · intro h
    rcases List.mem_map.mp h with ⟨⟨k, r'⟩, hm, rfl⟩
    exact ⟨k, hm⟩
  · rintro ⟨k, hk⟩
    exact List.mem_map.mpr ⟨(k, r), hk, rfl⟩

theorem Table.with_header_self (t : Table) : { t with header := t.header } = t := by
  cases t; rfl

/-- A result-table accumulator: no primary key, and `max_pk` dominates
every stored key (true of `new_result_table` and preserved by pushes). -/
def AccGood (t : Table) : Prop :=
  t.pk = none ∧ ∀ p ∈ t.data, p.1 ≤ t.max_pk

theorem accGood_new_result_table (h : TableHeader) :
    AccGood (Table.new_result_table h) := by
  constructor
  · rfl
  · intro p hp; simp [Table.new_result_table] at hp

/-- On a pk-less accumulator whose keys are dominated by `max_pk`,
`push_row` appends the row at the fresh key `max_pk + 1`. -/
theorem push_row_acc {t : Table} (r : TableRow) (h : AccGood t) :
    t.push_row r =
      some { t with max_pk := t.max_pk + 1, data := t.data ++ [(t.max_pk + 1, r)] } := by
  obtain ⟨hpk, hkeys⟩ := h
  simp only [Table.push_row, hpk]
  rw [natInsert_eq_append _ _ _ (fun p hp => Nat.lt_succ_of_le (hkeys p hp))]
  rfl

theorem accGood_push {t : Table} (r : TableRow) (h : AccGood t) :
    AccGood { t with max_pk := t.max_pk + 1, data := t.data ++ [(t.max_pk + 1, r)] } := by
  obtain ⟨hpk, hkeys⟩ := h
  refine ⟨hpk, ?_⟩
  intro p hp
  rcases List.mem_append.mp hp with hp | hp
  · exact Nat.le_succ_of_le (hkeys p hp)
  · simp only [List.mem_singleton] at hp
    subst hp
    simp

/-- From `push_row` never touches the header, the name, or the pk config. -/
theorem push_row_frame {t t' : Table} {r : TableRow} (h : t.push_row r = some t') :
    t'.header = t.header ∧ t'.pk = t.pk ∧ t'.name = t.name ∧
      ∃ k, t'.data = natInsert k r t.data := by
  obtain ⟨nm, hd, dt, pk, mpk⟩ := t
  cases pk with
  | some i =>
    simp only [Table.push_row] at h
    cases hr : r.get? i with
    | none => rw [hr] at h; simp at h
    | some c =>
      rw [hr] at h
      simp only [Option.bind_eq_bind, Option.some_bind, Option.pure_def,
        Option.some.injEq] at h
      subst h
      exact ⟨rfl, rfl, rfl, c.to_uint, rfl⟩
  | none =>
    simp only [Table.push_row, Option.pure_def, Option.some.injEq] at h
    subst h
    exact ⟨rfl, rfl, rfl, mpk + 1, rfl⟩

/-- From `push_row` preserves the width invariant when the pushed row is
header-width. -/
theorem push_row_sizeok {t t' : Table} {r : TableRow} (h : t.push_row r = some t')
    (hs : t.SizeOK) (hr : r.length = t.header.length) : t'.SizeOK := by
  obtain ⟨hh, -, -, k, hd⟩ := push_row_frame h
  intro p hp
  rw [hd] at hp
  rcases mem_natInsert hp with rfl | hp
  · simpa [hh] using hr
  · rw [hh]; exact hs p hp

/-- From `scatter` preserves row length. -/
theorem scatter_length {t : Table} :
    ∀ {pairs : List (String × LiteralValue)} {row row' : TableRow},
      t.scatter pairs row = some row' → row'.length = row.length := by
  intro pairs
  induction pairs with
  | nil => intro row row' h; simp [Table.scatter] at h; simp [h]
  | cons p rest ih =>
    intro row row' h
    obtain ⟨n, v⟩ := p
    simp only [Table.scatter] at h
    cases hj : t.get_column_index n with
    | none => rw [hj] at h; simp at h
    | some j =>
      rw [hj] at h
      have := ih h
      simpa using this

/-- From `scatter` leaves a position untouched when no scattered column resolves
to it. -/
theorem scatter_get_of_ne {t : Table} {i : Nat} :
    ∀ {pairs : List (String × LiteralValue)} {row row' : TableRow},
      t.scatter pairs row = some row' →
      (∀ p ∈ pairs, ∀ j, t.get_column_index p.1 = some j → j ≠ i) →
      row'.get? i = row.get? i := by
  intro pairs
  induction pairs with
  | nil => intro row row' h _; simp [Table.scatter] at h; simp [h]
  | cons p rest ih =>
    intro row row' h hno
    obtain ⟨n, v⟩ := p
    simp only [Table.scatter] at h
    cases hj : t.get_column_index n with
    | none => rw [hj] at h; simp at h
    | some j =>
      rw [hj] at h
      have hji : j ≠ i := hno (n, v) (by simp) j hj
      have := ih h (fun q hq => hno q (by simp [hq]))
      rw [this]
      simp only [List.get?_eq_getElem?]
      exact List.getElem?_set_ne hji

/-- The SET loop preserves row length. -/
theorem applySet_length {header : TableHeader} :
    ∀ {assignments : List (String × Expression)} {row row' : TableRow},
      applySet header assignments row = some row' → row'.length = row.length := by
  intro assignments
  induction assignments with
  | nil => intro row row' h; simp [applySet] at h; simp [h]
  | cons a rest ih =>
    intro row row' h
    obtain ⟨n, e⟩ := a
    simp only [applySet, List.foldlM_cons] at h
    cases hx : header.findIdx? (fun cols => cols.name == n) with
    | none => rw [hx] at h; simp at h
    | some x =>
      rw [hx] at h
      cases hv : expr_to_literal e with
      | none => rw [hv] at h; simp at h
      | some v =>
        rw [hv] at h
        by_cases hlt : x < row.length
        · simp only [Option.bind_eq_bind, Option.some_bind, Option.pure_def,
            if_pos hlt] at h
          have := ih (show applySet header rest (row.set x v) = some row' from h)
          simpa using this
        · simp [hlt] at h

/-- The rows kept by `delete_where`: membership is exactly "was present and
the predicate evaluated to `false`". -/
theorem keepRows_mem {f : TableRow → Option Bool} :
    ∀ {l out : List (PkType × TableRow)}, keepRows f l = some out →
      ∀ p, (p ∈ out ↔ p ∈ l ∧ f p.2 = some false) := by
  intro l
  induction l with
  | nil =>
    intro out h p
    simp [keepRows] at h
    subst h
    simp
  | cons q rest ih =>
    intro out h p
    simp only [keepRows] at h
    cases hb : f q.2 with
    | none => rw [hb] at h; simp at h
    | some b =>
      rw [hb] at h
      cases htl : keepRows f rest with
      | none => rw [htl] at h; simp at h
      | some tail =>
        rw [htl] at h
        cases b with
        | true =>
          simp at h
          subst h
          rw [ih htl p]
          constructor
          · rintro ⟨hm, hf⟩; exact ⟨by simp [hm], hf⟩
          · rintro ⟨hm, hf⟩
            rcases List.mem_cons.mp hm with rfl | hm
            · rw [hb] at hf; simp at hf
            · exact ⟨hm, hf⟩
        | false =>
          simp at h
          subst h
          constructor
          · intro hm
            rcases List.mem_cons.mp hm with rfl | hm
            · exact ⟨by simp, hb⟩
            · have := (ih htl p).mp hm
              exact ⟨by simp [this.1], this.2⟩
          · rintro ⟨hm, hf⟩
            rcases List.mem_cons.mp hm with rfl | hm
            · simp
            · exact List.mem_cons_of_mem _ ((ih htl p).mpr ⟨hm, hf⟩)

/-- Monadic map over `Option` with a per-element specification: if every
element maps successfully to a value satisfying `P`, the whole `mapM`
succeeds and every input element has a `P`-related image in the output. -/
theorem mapM_option_spec {α β : Type} {f : α → Option β} {P : α → β → Prop} :
    ∀ {l : List α}, (∀ x ∈ l, ∃ y, f x = some y ∧ P x y) →
      ∃ l', l.mapM f = some l' ∧ l'.length = l.length ∧
        (∀ x ∈ l, ∃ y ∈ l', f x = some y ∧ P x y) ∧
        (∀ y ∈ l', ∃ x ∈ l, f x = some y ∧ P x y) := by
  intro l
  induction l with
  | nil => intro _; exact ⟨[], rfl, by simp, by simp, by simp⟩
  | cons a rest ih =>
    intro hall
    obtain ⟨y, hy, hPy⟩ := hall a (by simp)
    obtain ⟨l', hl', hlen, hfwd, hbwd⟩ := ih (fun x hx => hall x (by simp [hx]))
    refine ⟨y :: l', ?_, by simp [hlen], ?_, ?_⟩
    · rw [List.mapM_cons, hy]
      simp only [Option.bind_eq_bind, Option.some_bind]
      rw [hl']
      simp only [Option.some_bind, Option.pure_def]
    · intro x hx
      rcases List.mem_cons.mp hx with rfl | hx
      · exact ⟨y, by simp, hy, hPy⟩
      · obtain ⟨z, hz, hfz, hPz⟩ := hfwd x hx
        exact ⟨z, by simp [hz], hfz, hPz⟩
    · intro z hz
      rcases List.mem_cons.mp hz with rfl | hz
      · exact ⟨a, by simp, hy, hPy⟩
      · obtain ⟨x, hx, hfx, hPx⟩ := hbwd z hz
        exact ⟨x, by simp [hx], hfx, hPx⟩

/-! ### Cross-product and result-set lemmas -/

theorem product_nil_some (acc : Table) (r : TableRow) :
    product [] acc (some r) = acc.push_row r := by
  simp [product]

theorem product_nil_none (acc : Table) :
    product [] acc none = some acc := by
  simp [product]

theorem product_cons (t : Table) (rest : List Table) (acc : Table)
    (nro : Option TableRow) :
    product (t :: rest) acc nro =
      t.data.foldlM
        (fun a kr => product rest a (some (nro.getD [] ++ kr.2))) acc := by
  simp [product]

theorem rows_push (t : Table) (k : PkType) (r : TableRow) :
    ({ t with max_pk := k, data := t.data ++ [(k, r)] } : Table).rows
      = t.rows ++ [r] := by
  simp [Table.rows]

/-- Folding `push_row` of a function of each entry over a good accumulator
appends exactly the mapped rows. -/
theorem fold_push_acc (g : PkType × TableRow → TableRow) :
    ∀ (l : List (PkType × TableRow)) (acc : Table), AccGood acc →
      ∃ acc', l.foldlM (fun a kr => a.push_row (g kr)) acc = some acc' ∧
        AccGood acc' ∧ acc'.rows = acc.rows ++ l.map g ∧
        acc'.header = acc.header := by
  intro l
  induction l with
  | nil => intro acc h; exact ⟨acc, rfl, h, by simp, rfl⟩
  | cons kr rest ih =>
    intro acc h
    obtain ⟨acc', hfold, hgood, hrows, hhd⟩ :=
      ih { acc with max_pk := acc.max_pk + 1, data := acc.data ++ [(acc.max_pk + 1, g kr)] }
        (accGood_push (g kr) h)
    refine ⟨acc', ?_, hgood, ?_, hhd⟩
    · rw [List.foldlM_cons, push_row_acc (g kr) h]
      simpa using hfold
    · rw [hrows, rows_push]
      simp

/-- The inner stage of `product` over a single remaining table: push each of
its rows appended to the fixed prefix. -/
theorem product_single (t2 : Table) (acc : Table) (r1 : TableRow)
    (h : AccGood acc) :
    ∃ acc', product [t2] acc (some r1) = some acc' ∧ AccGood acc' ∧
      acc'.rows = acc.rows ++ t2.rows.map (fun r2 => r1 ++ r2) ∧
      acc'.header = acc.header := by
  rw [product_cons]
  have hbody :
      (fun (a : Table) (kr : PkType × TableRow) =>
          product [] a (some (((some r1).getD []) ++ kr.2)))
        = fun a kr => a.push_row (r1 ++ kr.2) := by
    funext a kr
    rw [product_nil_some]
    rfl
  rw [hbody]
  obtain ⟨acc', hfold, hgood, hrows, hhd⟩ :=
    fold_push_acc (fun kr => r1 ++ kr.2) t2.data acc h
  refine ⟨acc', hfold, hgood, ?_, hhd⟩
  rw [hrows]
  simp [Table.rows, List.map_map]

/-- The outer stage of `product` over two tables: the accumulated rows grow
by the full left-to-right cross product. -/
theorem product_pair (t2 : Table) :
    ∀ (l1 : List (PkType × TableRow)) (acc : Table), AccGood acc →
      ∃ acc', l1.foldlM (fun a kr => product [t2] a (some kr.2)) acc = some acc' ∧
        AccGood acc' ∧
        acc'.rows = acc.rows ++
          (l1.map (fun kr => t2.rows.map (fun r2 => kr.2 ++ r2))).flatten ∧
        acc'.header = acc.header := by
  intro l1
  induction l1 with
  | nil => intro acc h; exact ⟨acc, rfl, h, by simp, rfl⟩
  | cons kr rest ih =>
    intro acc h
    obtain ⟨acc1, h1, hgood1, hrows1, hhd1⟩ := product_single t2 acc kr.2 h
    obtain ⟨acc', hfold, hgood, hrows, hhd⟩ := ih acc1 hgood1
    refine ⟨acc', ?_, hgood, ?_, by rw [hhd, hhd1]⟩
    · rw [List.foldlM_cons, h1]
      simpa using hfold
    · rw [hrows, hrows1]
      simp

theorem product_two_tables (t1 t2 : Table) (acc : Table) (h : AccGood acc) :
    ∃ acc', product [t1, t2] acc none = some acc' ∧ AccGood acc' ∧
      acc'.rows = acc.rows ++
        (t1.rows.map (fun r1 => t2.rows.map (fun r2 => r1 ++ r2))).flatten ∧
      acc'.header = acc.header := by
  rw [product_cons]
  have hbody :
      (fun (a : Table) (kr : PkType × TableRow) =>
          product [t2] a (some (((none : Option TableRow)).getD [] ++ kr.2)))
        = fun a kr => product [t2] a (some kr.2) := by
    funext a kr
    simp
  rw [hbody]
  obtain ⟨acc', hfold, hgood, hrows, hhd⟩ := product_pair t2 t1.data acc h
  refine ⟨acc', hfold, hgood, ?_, hhd⟩
  rw [hrows]
  simp only [Table.rows, List.map_map]
  rfl

/-- The `Asterisk` branch of `generate_result_set`, once the result header
has been aligned with the input header: a plain push of every row. -/
theorem rs_fold_steady (H : TableHeader) :
    ∀ (l : List (PkType × TableRow)) (rt : Table), AccGood rt → rt.header = H →
      ∃ rt', l.foldlM
          (fun rt kr =>
            (if rt.header.length == 0 then { rt with header := H } else rt).push_row kr.2)
          rt = some rt' ∧
        AccGood rt' ∧ rt'.rows = rt.rows ++ l.map Prod.snd ∧ rt'.header = H := by
  intro l
  induction l with
  | nil => intro rt h hh; exact ⟨rt, rfl, h, by simp, hh⟩
  | cons kr rest ih =>
    intro rt h hh
    have hcollapse :
        (if rt.header.length == 0 then { rt with header := H } else rt) = rt := by
      subst hh
      rw [Table.with_header_self]
      simp
    obtain ⟨rt', hfold, hgood, hrows, hhd⟩ :=
      ih { rt with max_pk := rt.max_pk + 1, data := rt.data ++ [(rt.max_pk + 1, kr.2)] }
        (accGood_push kr.2 h) hh
    refine ⟨rt', ?_, hgood, ?_, hhd⟩
    · rw [List.foldlM_cons, hcollapse, push_row_acc kr.2 h]
      simpa using hfold
    · rw [hrows, rows_push]
      simp

/-- From `generate_result_set` with `Asterisk` reproduces exactly the filtered
input rows. -/
theorem generate_result_set_asterisk (ip : Table) (its : List Table)
    (q : Option (List String)) (w : Option Expression) :
    ∃ res, generate_result_set ip its ⟨.Asterisk, q, w⟩ = some res ∧
      res.rows = ip.rows := by
  have hmain :
      generate_result_set ip its ⟨.Asterisk, q, w⟩ =
        ip.data.foldlM
          (fun rt kr =>
            (if rt.header.length == 0
             then { rt with header := ip.header } else rt).push_row kr.2)
          (Table.new_result_table []) := rfl
  rw [hmain]
  rcases hd : ip.data with _ | ⟨kr, l⟩
  · refine ⟨Table.new_result_table [], rfl, ?_⟩
    simp [Table.rows, Table.new_result_table, hd]
  · rw [List.foldlM_cons]
    have hfirst :
        (if (Table.new_result_table []).header.length == 0
         then { Table.new_result_table [] with header := ip.header }
         else Table.new_result_table []) =
        ({ name := "", header := ip.header, data := [], pk := none,
           max_pk := 0 } : Table) := by
      simp [Table.new_result_table]
    rw [hfirst]
    have hgood0 :
        AccGood ({ name := "", header := ip.header, data := [], pk := none,
                   max_pk := 0 } : Table) := by
      refine ⟨rfl, ?_⟩
      intro p hp
      simp at hp
    rw [push_row_acc kr.2 hgood0]
    obtain ⟨rt', hfold, hgood, hrows, hhd⟩ :=
      rs_fold_steady ip.header l
        { name := "", header := ip.header, data := [(0 + 1, kr.2)], pk := none,
          max_pk := 0 + 1 }
        (by
          refine ⟨rfl, ?_⟩
          intro p hp
          simp at hp
          simp [hp])
        rfl
    refine ⟨rt', ?_, ?_⟩
    · simpa using hfold
    · rw [hrows]
      simp [Table.rows, hd]

/-! ### Claim C9 -/

/-- The tag (variant discriminant) of a literal value. -/
def LiteralValue.tag : LiteralValue → Nat
  | .Integer _ => 0
  | .Text _ => 1
  | .Real _ => 2
  | .Null => 3

/-- C9: equality of literal values under the `Equals` operator is structural
and type-sensitive — values of different tags are never equal (in particular
`Integer(1) Equals Real(1.0)` is false), equal same-tag values compare true
(`Integer(1) Equals Integer(1)`), and `Null Equals Null` is true under the
derived structural equality, with no SQL tri-valued logic. -/
theorem C9_literal_equality :
    (eval_expr [] [] none (.BinaryOperator .Equals (.LiteralValue (.Integer 1))
        (.LiteralValue (.Real 1))) = some (.Boolean false))
  ∧ (eval_expr [] [] none (.BinaryOperator .Equals (.LiteralValue (.Integer 1))
        (.LiteralValue (.Integer 1))) = some (.Boolean true))
  ∧ (eval_expr [] [] none (.BinaryOperator .Equals (.LiteralValue .Null)
        (.LiteralValue .Null)) = some (.Boolean true))
  ∧ (∀ a b : LiteralValue, a.tag ≠ b.tag →
      eval_expr [] [] none (.BinaryOperator .Equals (.LiteralValue a)
        (.LiteralValue b)) = some (.Boolean false)) := by
  refine ⟨rfl, by decide, rfl, ?_⟩
  intro a b hne
  cases a <;> cases b <;>
    first
      | rfl
      | simp [LiteralValue.tag] at hne

/-- Witness for C9's quantified conjunct at a concrete pair of tags. -/
theorem C9_literal_equality_witness :
    eval_expr [] [] none (.BinaryOperator .Equals
      (.LiteralValue (.Text "one")) (.LiteralValue (.Integer 1)))
      = some (.Boolean false) :=
  C9_literal_equality.2.2.2 (.Text "one") (.Integer 1) (by decide)

/-! ### Claim C8 -/

/-- C8: `create_table` with the "if not exists" flag set is a no-op when a
table of that name is present (catalog unchanged, rows retained); without
the flag it unconditionally replaces any existing same-named table with the
new empty definition. -/
theorem C8_create_table (db : Rusql) (d : TableDef) :
    (d.if_not_exists = true → ∀ t, db.get_table d.table_name = some t →
      db.create_table d = db)
  ∧ (d.if_not_exists = false →
      (db.create_table d).get_table d.table_name = some (Table.new d)
      ∧ (Table.new d).data = []) := by
  constructor
  · intro hflag t ht
    have hcond : (d.if_not_exists && (strFind d.table_name db.map).isSome) = true := by
      unfold Rusql.get_table at ht
      rw [hflag, ht]
      rfl
    unfold Rusql.create_table
    rw [if_pos hcond]
  · intro hflag
    have hcond : (d.if_not_exists && (strFind d.table_name db.map).isSome) = false := by
      rw [hflag]
      rfl
    unfold Rusql.create_table
    rw [if_neg (by simp [hcond])]
    refine ⟨?_, rfl⟩
    show strFind d.table_name (strInsert (Table.new d).name (Table.new d) db.map)
      = some (Table.new d)
    have hnm : (Table.new d).name = d.table_name := rfl
    rw [hnm]
    exact strFind_strInsert_self _ _ _

def cw8def1 : TableDef :=
  { table_name := "Foo"
    columns := [{ name := "Id", column_type := some .Integer, column_constraints := [] }]
    if_not_exists := false }

def cw8def2 : TableDef :=
  { table_name := "Foo"
    columns := [{ name := "Other", column_type := none, column_constraints := [] }]
    if_not_exists := true }

def cw8def3 : TableDef :=
  { table_name := "Foo"
    columns := [{ name := "Third", column_type := none, column_constraints := [] }]
    if_not_exists := false }

def cw8db : Rusql := Rusql.new.create_table cw8def1

/-- Witness for C8 at a concrete catalog with `Foo` present. -/
theorem C8_create_table_witness :
    (cw8db.create_table cw8def2 = cw8db)
  ∧ ((cw8db.create_table cw8def3).get_table "Foo" = some (Table.new cw8def3)
      ∧ (Table.new cw8def3).data = []) :=
  ⟨(C8_create_table cw8db cw8def2).1 rfl (Table.new cw8def1) rfl,
   (C8_create_table cw8db cw8def3).2 rfl⟩

/-! ### Claim C10 -/

/-- C10: `rename_table(old, new)` moves the table to catalog key `new` and
removes key `old`, leaving the `Table` value itself (every field, including
its internal `name`, which still equals `old`) unchanged, so the catalog key
and the table's own name diverge. -/
theorem C10_rename_table (db : Rusql) (old_name new_name : String) (t : Table)
    (h : db.get_table old_name = some t) (hne : old_name ≠ new_name)
    (hnm : t.name = old_name) :
    ∃ db', db.rename_table old_name new_name = some db'
      ∧ db'.get_table new_name = some t
      ∧ db'.get_table old_name = none
      ∧ (db'.get_table new_name).map Table.name = some old_name := by
  unfold Rusql.get_table at h
  unfold Rusql.rename_table
  rw [h]
  refine ⟨_, rfl, ?_, ?_, ?_⟩
  · exact strFind_strInsert_self _ _ _
  · show strFind old_name (strInsert new_name t (strRemove old_name db.map)) = none
    rw [strFind_strInsert_ne _ _ hne]
    exact strFind_strRemove_self _ _
  · show (strFind new_name (strInsert new_name t (strRemove old_name db.map))).map
      Table.name = some old_name
    rw [strFind_strInsert_self _ _ _]
    simp [hnm]

def cw10tbl : Table :=
  { name := "A"
    header := [{ name := "Id", column_type := none, column_constraints := [] }]
    data := [(1, [LiteralValue.Integer 1])]
    pk := none
    max_pk := 1 }

def cw10db : Rusql := { map := [("A", cw10tbl)] }

/-- Witness for C10 at a concrete catalog. -/
theorem C10_rename_table_witness :
    ∃ db', cw10db.rename_table "A" "B" = some db'
      ∧ db'.get_table "B" = some cw10tbl
      ∧ db'.get_table "A" = none
      ∧ (db'.get_table "B").map Table.name = some "A" :=
  C10_rename_table cw10db "A" "B" cw10tbl rfl (by decide) rfl

/-! ### Claim C3 -/

/-- C3: with a primary-key column configured, `push_row` derives the storage
key from that column's value, raises `max_pk` to the maximum of its old
value and the key, and stores the row at that key, silently overwriting any
existing row there while leaving every other key untouched; with no
primary-key column, the row is stored under the fresh key `max_pk + 1`, so
every stored row of a declared-PK-less table has a distinct key. -/
theorem C3_push_row (t : Table) (row : TableRow) :
    (∀ i cv, t.pk = some i → row.get? i = some cv →
      ∃ t', t.push_row row = some t'
        ∧ t'.max_pk = max t.max_pk cv.to_uint
        ∧ natFind cv.to_uint t'.data = some row
        ∧ ∀ j, j ≠ cv.to_uint → natFind j t'.data = natFind j t.data)
  ∧ (t.pk = none → (∀ p ∈ t.data, p.1 ≤ t.max_pk) →
      ∃ t', t.push_row row = some t'
        ∧ t'.max_pk = t.max_pk + 1
        ∧ natFind (t.max_pk + 1) t.data = none
        ∧ natFind (t.max_pk + 1) t'.data = some row
        ∧ t'.data.length = t.data.length + 1) := by
  constructor
  · intro i cv hpk hget
    refine ⟨{ t with
                max_pk := max t.max_pk cv.to_uint
                data := natInsert cv.to_uint row t.data }, ?_, rfl,
            natFind_natInsert_self _ _ _,
            fun j hj => natFind_natInsert_ne _ _ hj⟩
    have hget' : row[i]? = some cv := by simpa using hget
    simp [Table.push_row, hpk, hget']
  · intro hpk hkeys
    have hnone : natFind (t.max_pk + 1) t.data = none :=
      natFind_none_of_keys_lt (fun p hp => Nat.lt_succ_of_le (hkeys p hp))
    refine ⟨{ t with
                max_pk := t.max_pk + 1
                data := natInsert (t.max_pk + 1) row t.data }, ?_, rfl, hnone,
            natFind_natInsert_self _ _ _,
            length_natInsert_fresh _ hnone⟩
    simp [Table.push_row, hpk]

def cw3a : Table :=
  { name := "A"
    header := [{ name := "Id", column_type := some .Integer,
                 column_constraints := [.PrimaryKey] }]
    data := [(7, [LiteralValue.Integer 7])]
    pk := some 0
    max_pk := 7 }

def cw3b : Table :=
  { name := "B"
    header := [{ name := "Id", column_type := some .Integer,
                 column_constraints := [] }]
    data := [(1, [LiteralValue.Integer 5])]
    pk := none
    max_pk := 1 }

/-- Witness for C3 at concrete tables, exercising both the overwriting
keyed store and the fresh surrogate store. -/
theorem C3_push_row_witness :
    (∃ t', cw3a.push_row [LiteralValue.Integer 7] = some t'
      ∧ t'.max_pk = max cw3a.max_pk ((LiteralValue.Integer 7).to_uint)
      ∧ natFind ((LiteralValue.Integer 7).to_uint) t'.data
          = some [LiteralValue.Integer 7]
      ∧ ∀ j, j ≠ (LiteralValue.Integer 7).to_uint →
          natFind j t'.data = natFind j cw3a.data)
  ∧ (∃ t', cw3b.push_row [LiteralValue.Integer 9] = some t'
      ∧ t'.max_pk = cw3b.max_pk + 1
      ∧ natFind (cw3b.max_pk + 1) cw3b.data = none
      ∧ natFind (cw3b.max_pk + 1) t'.data = some [LiteralValue.Integer 9]
      ∧ t'.data.length = cw3b.data.length + 1) :=
  ⟨(C3_push_row cw3a [LiteralValue.Integer 7]).1 0 (.Integer 7) rfl rfl,
   (C3_push_row cw3b [LiteralValue.Integer 9]).2 rfl (by decide)⟩

/-! ### Claim C5 -/

/-- C5: with a WHERE expression, a joined input row survives `filter_inputs`
iff `eval_bool` of the expression on that row is `some true`; a row whose
expression evaluates to a plain (non-boolean) value is excluded as if the
predicate were false, with no type error raised. -/
theorem C5_filter_where (ip : Table) (its : List Table) (rc : ResultColumn)
    (q : Option (List String)) (e : Expression) (out : Table)
    (h : filter_inputs ip its ⟨rc, q, some e⟩ = some out) :
    (∀ k r, (k, r) ∈ out.data ↔
      ((k, r) ∈ ip.data ∧ eval_bool r ip.header (some its) e = some true))
  ∧ (∀ k r v, (k, r) ∈ ip.data →
      eval_expr r ip.header (some its) e = some (.Value v) →
      (k, r) ∉ out.data) := by
  have hdw : Table.delete_where ip
      (fun row => (eval_bool row ip.header (some its) e).map (fun b => !b))
      = some out := h
  unfold Table.delete_where at hdw
  cases hkeep : keepRows
      (fun row => (eval_bool row ip.header (some its) e).map (fun b => !b))
      ip.data with
  | none => rw [hkeep] at hdw; simp at hdw
  | some kept =>
    rw [hkeep] at hdw
    simp only [Option.bind_eq_bind, Option.some_bind, Option.pure_def,
      Option.some.injEq] at hdw
    have hout : out.data = kept := by rw [← hdw]
    have hmem := keepRows_mem hkeep
    have hiff : ∀ k r, (k, r) ∈ out.data ↔
        ((k, r) ∈ ip.data ∧ eval_bool r ip.header (some its) e = some true) := by
      intro k r
      rw [hout, hmem (k, r)]
      constructor
      · rintro ⟨hm, hf⟩
        refine ⟨hm, ?_⟩
        cases hbb : eval_bool r ip.header (some its) e with
        | none => rw [hbb] at hf; simp at hf
        | some b =>
          rw [hbb] at hf
          simp at hf
          cases b
          · simp at hf
          · rfl
      · rintro ⟨hm, hf⟩
        refine ⟨hm, ?_⟩
        rw [hf]
        rfl
    refine ⟨hiff, ?_⟩
    intro k r v hm hev hout'
    have := ((hiff k r).mp hout').2
    unfold eval_bool at this
    rw [hev] at this
    simp at this

def cw5src : Table :=
  { name := "T"
    header := [{ name := "Id", column_type := some .Integer,
                 column_constraints := [] }]
    data := [(1, [LiteralValue.Integer 1]), (2, [LiteralValue.Integer 2])]
    pk := none
    max_pk := 2 }

def cw5e : Expression :=
  .BinaryOperator .Equals (.ColumnName "Id") (.LiteralValue (.Integer 1))

/-- Witness for C5 at a concrete filtered input. -/
theorem C5_filter_where_witness :
    ((1, [LiteralValue.Integer 1]) ∈
        ({ cw5src with data := [(1, [LiteralValue.Integer 1])] } : Table).data
      ↔ ((1, [LiteralValue.Integer 1]) ∈ cw5src.data
         ∧ eval_bool [LiteralValue.Integer 1] cw5src.header (some [cw5src]) cw5e
             = some true)) :=
  (C5_filter_where cw5src [cw5src] .Asterisk (some ["T"]) cw5e
    { cw5src with data := [(1, [LiteralValue.Integer 1])] } rfl).1
    1 [LiteralValue.Integer 1]

/-! ### Claim C4 -/

theorem findIdx?_lt_length {α : Type} {xs : List α} {p : α → Bool} {i : Nat}
    (h : xs.findIdx? p = some i) : i < xs.length :=
  (List.findIdx?_eq_some_iff_findIdx_eq.mp h).1

theorem expr_to_literal_lit (v : LiteralValue) :
    expr_to_literal (.LiteralValue v) = some v := rfl

/-- The SET loop on two literal assignments to distinct columns: both
writes land in the named cells, in order. -/
theorem applySet_lit_pair {header : TableHeader} {a b : String}
    {ia ib : Nat} (u v : LiteralValue) (r : TableRow)
    (ha : header.findIdx? (fun c => c.name == a) = some ia)
    (hb : header.findIdx? (fun c => c.name == b) = some ib)
    (hia : ia < r.length) (hib : ib < r.length) :
    applySet header [(a, .LiteralValue u), (b, .LiteralValue v)] r
      = some ((r.set ia u).set ib v) := by
  simp [applySet, ha, hb, expr_to_literal_lit, hia, hib]

/-- The SET loop on two literal assignments to the same column: the later
write overwrites the earlier one (in-order application). -/
theorem applySet_lit_same {header : TableHeader} {a : String}
    {ia : Nat} (u v : LiteralValue) (r : TableRow)
    (ha : header.findIdx? (fun c => c.name == a) = some ia)
    (hia : ia < r.length) :
    applySet header [(a, .LiteralValue u), (a, .LiteralValue v)] r
      = some ((r.set ia u).set ia v) := by
  simp [applySet, ha, expr_to_literal_lit, hia]

/-- A SET assignment whose expression is a column reference panics: the
assigned value is computed from the expression alone, with no row in
scope, so there is no cell to read. -/
theorem applySet_colRef_panics {header : TableHeader} {a b : String}
    {ia : Nat} (rest : List (String × Expression)) (r : TableRow)
    (ha : header.findIdx? (fun c => c.name == a) = some ia) :
    applySet header ((a, .ColumnName b) :: rest) r = none := by
  simp [applySet, ha, expr_to_literal]

/-- UPDATE without a WHERE clause, when every row's `applySet` succeeds
with a property `P`: the statement succeeds and every stored row is
rewritten accordingly (same key, transformed value). -/
theorem update_no_where {db : Rusql} {nm : String}
    {assignments : List (String × Expression)} {t : Table}
    (ht : db.get_table nm = some t) (P : TableRow → TableRow → Prop)
    (hall : ∀ kr ∈ t.data, ∃ r',
      applySet t.header assignments kr.2 = some r' ∧ P kr.2 r') :
    ∃ db' t', update db ⟨nm, assignments, none⟩ = some db'
      ∧ db'.get_table nm = some t'
      ∧ t'.header = t.header
      ∧ ∀ k r, (k, r) ∈ t.data → ∃ r', (k, r') ∈ t'.data ∧ P r r' := by
  have hu : update db ⟨nm, assignments, none⟩ =
      (db.get_table nm).bind (fun table =>
        (table.data.mapM (fun kr =>
          (applySet table.header assignments kr.2).bind
            (fun r => some (kr.1, r)))).bind
        (fun newData => some (db.put_table nm { table with data := newData }))) := rfl
  obtain ⟨nd, hnd, hlen, hfwd, hbwd⟩ :=
    mapM_option_spec
      (f := fun kr : PkType × TableRow =>
        (applySet t.header assignments kr.2).bind (fun r => some (kr.1, r)))
      (P := fun x y => y.1 = x.1 ∧ P x.2 y.2)
      (l := t.data)
      (fun kr hkr => by
        obtain ⟨r', hr', hP⟩ := hall kr hkr
        refine ⟨(kr.1, r'), ?_, rfl, hP⟩
        show (applySet t.header assignments kr.2).bind (fun r => some (kr.1, r))
          = some (kr.1, r')
        rw [hr']
        rfl)
  refine ⟨db.put_table nm { t with data := nd }, { t with data := nd }, ?_, ?_, rfl, ?_⟩
  · rw [hu, ht]
    simp only [Option.some_bind]
    rw [hnd]
    rfl
  · show strFind nm (strInsert nm _ db.map) = _
    rw [strFind_strInsert_self]
  · intro k r hm
    obtain ⟨y, hy, _, hy1, hyP⟩ := hfwd (k, r) hm
    refine ⟨y.2, ?_, hyP⟩
    have : (k, y.2) = y := by
      apply Prod.ext
      · exact hy1.symm
      · rfl
    rw [this]
    exact hy

/-- C4 (as the code behaves): UPDATE applies its SET pairs to each matching
row in the given order, writing into the named column's cell, and a later
write to the same column overwrites an earlier one; but the assigned value
is computed by `expr_to_literal` from the expression alone
(`row[x] = expr_to_literal(expr)`), so an assignment can observe neither an
earlier assignment's effect nor any cell of the row: literal assignments
write their literals, and a column-reference assignment has no row to read
— in this model (the sources leave its value undetermined) it panics, so on
a non-empty table `SET a = b, b = 5` fails rather than copying `b`. -/
theorem C4_update_in_order_row_independent (db : Rusql) (nm a b : String)
    (t : Table) (u v : LiteralValue) (ia ib : Nat)
    (ht : db.get_table nm = some t)
    (ha : t.header.findIdx? (fun c => c.name == a) = some ia)
    (hb : t.header.findIdx? (fun c => c.name == b) = some ib)
    (hne : ia ≠ ib)
    (hw : t.SizeOK) :
    (∃ db' t', update db ⟨nm, [(a, .LiteralValue u), (b, .LiteralValue v)], none⟩
        = some db'
      ∧ db'.get_table nm = some t'
      ∧ ∀ k r, (k, r) ∈ t.data →
          ∃ r', (k, r') ∈ t'.data ∧ r'[ia]? = some u ∧ r'[ib]? = some v)
  ∧ (∃ db' t', update db ⟨nm, [(a, .LiteralValue u), (a, .LiteralValue v)], none⟩
        = some db'
      ∧ db'.get_table nm = some t'
      ∧ ∀ k r, (k, r) ∈ t.data →
          ∃ r', (k, r') ∈ t'.data ∧ r'[ia]? = some v)
  ∧ (t.data ≠ [] →
      update db ⟨nm, [(a, .ColumnName b), (b, .LiteralValue v)], none⟩ = none) := by
  have hiaH := findIdx?_lt_length ha
  have hibH := findIdx?_lt_length hb
  refine ⟨?_, ?_, ?_⟩
  · obtain ⟨db', t', heq, hget, _, hrows⟩ :=
      update_no_where ht
        (fun r r' => r'[ia]? = some u ∧ r'[ib]? = some v)
        (fun kr hkr => by
          have hlenr : kr.2.length = t.header.length := hw kr hkr
          have hia : ia < kr.2.length := by omega
          have hib : ib < kr.2.length := by omega
          refine ⟨(kr.2.set ia u).set ib v, applySet_lit_pair u v kr.2 ha hb hia hib,
            ?_, ?_⟩
          · rw [List.getElem?_set_ne (Ne.symm hne)]
            exact List.getElem?_set_self (by simpa using hia)
          · exact List.getElem?_set_self (by simpa using hib))
    exact ⟨db', t', heq, hget, hrows⟩
  · obtain ⟨db', t', heq, hget, _, hrows⟩ :=
      update_no_where ht
        (fun r r' => r'[ia]? = some v)
        (fun kr hkr => by
          have hlenr : kr.2.length = t.header.length := hw kr hkr
          have hia : ia < kr.2.length := by omega
          exact ⟨(kr.2.set ia u).set ia v, applySet_lit_same u v kr.2 ha hia,
            List.getElem?_set_self (by simpa using hia)⟩)
    exact ⟨db', t', heq, hget, hrows⟩
  · intro hdata
    have h0 : update db ⟨nm, [(a, .ColumnName b), (b, .LiteralValue v)], none⟩ =
        (db.get_table nm).bind (fun table =>
          (table.data.mapM (fun (kr : PkType × TableRow) =>
            (applySet table.header [(a, .ColumnName b), (b, .LiteralValue v)]
              kr.2).bind
              (fun r => some (kr.1, r)))).bind
          (fun newData =>
            some (db.put_table nm { table with data := newData }))) := rfl
    rw [h0, ht]
    simp only [Option.some_bind]
    cases hd : t.data with
    | nil => exact absurd hd hdata
    | cons kr rest =>
      simp only [List.mapM_cons, applySet_colRef_panics _ _ ha]
      rfl

def cw4tbl : Table :=
  { name := "AB"
    header := [{ name := "a", column_type := none, column_constraints := [] },
               { name := "b", column_type := none, column_constraints := [] }]
    data := [(1, [LiteralValue.Integer 10, LiteralValue.Integer 20])]
    pk := none
    max_pk := 1 }

def cw4db : Rusql := { map := [("AB", cw4tbl)] }

/-- Counterexample to C4 as stated: `exec.rs` computes the assigned value
by `expr_to_literal(expr)` from the expression alone, so `SET a = b` has no
row to read `b` from.  On the one-row table `AB` (a = 10, b = 20), the
statement `UPDATE AB SET a = b, b = 5` panics instead of writing `b`'s
prior value 20 into `a`: no updated row is produced at all, so the claimed
sequential observation never occurs.  (Any row-independent completion of
the absent `expr_to_literal` refutes the claim; this model's panic fixes
the concrete outcome.) -/
theorem C4_counterexample :
    update cw4db ⟨"AB", [("a", Expression.ColumnName "b"),
        ("b", Expression.LiteralValue (LiteralValue.Integer 5))], none⟩
      = none := by
  rfl

/-- Witness for C4's amended statement at a concrete one-row table. -/
theorem C4_update_in_order_row_independent_witness :
    (∃ db' t', update cw4db
        ⟨"AB", [("a", .LiteralValue (.Integer 7)),
                ("b", .LiteralValue (.Integer 5))], none⟩ = some db'
      ∧ db'.get_table "AB" = some t'
      ∧ ∀ k r, (k, r) ∈ cw4tbl.data →
          ∃ r', (k, r') ∈ t'.data ∧ r'[0]? = some (.Integer 7)
            ∧ r'[1]? = some (.Integer 5))
  ∧ (∃ db' t', update cw4db
        ⟨"AB", [("a", .LiteralValue (.Integer 7)),
                ("a", .LiteralValue (.Integer 5))], none⟩ = some db'
      ∧ db'.get_table "AB" = some t'
      ∧ ∀ k r, (k, r) ∈ cw4tbl.data →
          ∃ r', (k, r') ∈ t'.data ∧ r'[0]? = some (.Integer 5))
  ∧ update cw4db
      ⟨"AB", [("a", .ColumnName "b"),
              ("b", .LiteralValue (.Integer 5))], none⟩ = none :=
  have h := C4_update_in_order_row_independent cw4db "AB" "a" "b" cw4tbl
    (.Integer 7) (.Integer 5) 0 1 rfl rfl rfl (by decide) (by decide)
  ⟨h.1, h.2.1, h.2.2 (by decide)⟩

/-! ### Claim C6 -/

/-- From `scatter` succeeds when every scattered column name resolves. -/
theorem scatter_isSome {t : Table} :
    ∀ {pairs : List (String × LiteralValue)} {row : TableRow},
      (∀ p ∈ pairs, (t.get_column_index p.1).isSome) →
      ∃ row', t.scatter pairs row = some row' := by
  intro pairs
  induction pairs with
  | nil => intro row _; exact ⟨row, rfl⟩
  | cons p rest ih =>
    intro row hall
    obtain ⟨n, v⟩ := p
    have := hall (n, v) (by simp)
    cases hj : t.get_column_index n with
    | none => rw [hj] at this; simp at this
    | some j =>
      obtain ⟨row', hrow'⟩ := ih (fun q hq => hall q (by simp [hq]))
      exact ⟨row', by simp only [Table.scatter, hj]; exact hrow'⟩

/-- One pass of `Table::insert` with a specified column list omitting the
primary-key column: the scattered row keeps `Null` in the pk cell, the
surrogate `max_pk + 1` is synthesized there, and the row is stored under
that key. -/
theorem insert_one_pk (t : Table) (i : Nat) (names : List String)
    (cdta : TableRow)
    (hpk : t.pk = some i) (hi : i < t.header.length)
    (hlen : names.length = cdta.length)
    (hnames : ∀ n ∈ names, ∃ j, t.get_column_index n = some j ∧ j ≠ i) :
    ∃ row',
      t.insert [cdta] (some names)
        = some { t with
                   max_pk := t.max_pk + 1
                   data := natInsert (t.max_pk + 1) row' t.data }
      ∧ row'[i]? = some (.Integer (Int.ofNat (t.max_pk + 1)))
      ∧ row'.length = t.header.length := by
  obtain ⟨row1, hs⟩ :=
    @scatter_isSome t (names.zip cdta)
      (List.replicate t.header.length LiteralValue.Null)
      (fun p hp => by
        obtain ⟨j, hj, _⟩ := hnames p.1 (List.of_mem_zip hp).1
        simp [hj])
  have hlen1 : row1.length = t.header.length := by
    have := scatter_length hs
    simpa using this
  have hnull : row1[i]? = some LiteralValue.Null := by
    have hpres := scatter_get_of_ne hs
      (fun p hp j hj => by
        obtain ⟨j', hj', hne⟩ := hnames p.1 (List.of_mem_zip hp).1
        rw [hj] at hj'
        injection hj' with hh
        rw [← hh] at hne
        exact hne)
    have hrep : (List.replicate t.header.length LiteralValue.Null)[i]?
        = some LiteralValue.Null := by
      rw [List.getElem?_replicate]
      simp [hi]
    simpa [hrep] using hpres
  have hrow1get : row1.get? i = some LiteralValue.Null := by simpa using hnull
  have hget2 : (row1.set i (LiteralValue.Integer (Int.ofNat (t.max_pk + 1))))[i]?
      = some (LiteralValue.Integer (Int.ofNat (t.max_pk + 1))) :=
    List.getElem?_set_self (by rw [hlen1]; exact hi)
  have hget2' : (row1.set i (LiteralValue.Integer (Int.ofNat (t.max_pk + 1)))).get? i
      = some (LiteralValue.Integer (Int.ofNat (t.max_pk + 1))) := by simpa using hget2
  have hpush : t.push_row (row1.set i (LiteralValue.Integer (Int.ofNat (t.max_pk + 1))))
      = some { t with
                 max_pk := t.max_pk + 1
                 data := natInsert (t.max_pk + 1)
                   (row1.set i (LiteralValue.Integer (Int.ofNat (t.max_pk + 1)))) t.data } := by
    have hstep : t.push_row (row1.set i (LiteralValue.Integer (Int.ofNat (t.max_pk + 1))))
        = some { t with
                   max_pk := max t.max_pk
                     ((LiteralValue.Integer (Int.ofNat (t.max_pk + 1))).to_uint)
                   data := natInsert
                     ((LiteralValue.Integer (Int.ofNat (t.max_pk + 1))).to_uint)
                     (row1.set i (LiteralValue.Integer (Int.ofNat (t.max_pk + 1)))) t.data } := by
      simp only [Table.push_row, hpk, hget2', Option.bind_eq_bind, Option.some_bind,
        Option.pure_def]
    rw [hstep]
    simp [LiteralValue.to_uint, Nat.max_eq_right (Nat.le_succ t.max_pk)]
  refine ⟨row1.set i (LiteralValue.Integer (Int.ofNat (t.max_pk + 1))), ?_, hget2,
    by simp [hlen1]⟩
  have hone : t.insert [cdta] (some names)
      = (if names.length = cdta.length then
          (t.scatter (names.zip cdta)
            (List.replicate t.header.length LiteralValue.Null)).bind
            (fun row =>
              match t.pk with
              | some i => (row.get? i).bind (fun c =>
                  (some (if c = LiteralValue.Null
                         then row.set i (LiteralValue.Integer (Int.ofNat (t.max_pk + 1)))
                         else row)).bind (fun row => t.push_row row))
              | none => (some row).bind (fun row => t.push_row row))
        else none).bind (fun t1 => some t1) := rfl
  rw [hone, if_pos hlen, hs]
  simp only [Option.some_bind, hpk, hrow1get]
  simp only [if_true]
  rw [hpush, hpk]
  rfl

def cw6names : List String := ["Nick"]

def cw6tbl : Table :=
  { name := "Qux"
    header := [{ name := "QuxId", column_type := some .Integer,
                 column_constraints := [.PrimaryKey] },
               { name := "Nick", column_type := some .Text,
                 column_constraints := [] }]
    data := []
    pk := some 0
    max_pk := 0 }

/-- C6: inserting two rows through a specified column list that omits the
declared primary-key column synthesizes `max_pk + 1` as each row's integer
key at insertion time, so the two auto-generated keys are distinct and
strictly increasing and both rows are stored. -/
theorem C6_insert_surrogate_keys (t : Table) (i : Nat) (names : List String)
    (r1 r2 : TableRow)
    (hpk : t.pk = some i) (hi : i < t.header.length)
    (hlen1 : names.length = r1.length) (hlen2 : names.length = r2.length)
    (hnames : ∀ n ∈ names, ∃ j, t.get_column_index n = some j ∧ j ≠ i) :
    ∃ t' row1 row2,
      t.insert [r1, r2] (some names) = some t'
      ∧ natFind (t.max_pk + 1) t'.data = some row1
      ∧ natFind (t.max_pk + 2) t'.data = some row2
      ∧ row1[i]? = some (.Integer (Int.ofNat (t.max_pk + 1)))
      ∧ row2[i]? = some (.Integer (Int.ofNat (t.max_pk + 2)))
      ∧ t.max_pk + 1 < t.max_pk + 2
      ∧ t'.max_pk = t.max_pk + 2 := by
  obtain ⟨row1, h1, hget1, hlenr1⟩ := insert_one_pk t i names r1 hpk hi hlen1 hnames
  obtain ⟨row2, h2, hget2, hlenr2⟩ :=
    insert_one_pk
      { t with
          max_pk := t.max_pk + 1
          data := natInsert (t.max_pk + 1) row1 t.data }
      i names r2 hpk hi hlen2 hnames
  have hsplit : t.insert [r1, r2] (some names)
      = (t.insert [r1] (some names)).bind
          (fun t1 => t1.insert [r2] (some names)) := by
    unfold Table.insert
    rw [show ([r1, r2] : List TableRow) = [r1] ++ [r2] from rfl, List.foldlM_append]
    rfl
  refine ⟨{ t with
              max_pk := t.max_pk + 1 + 1
              data := natInsert (t.max_pk + 1 + 1) row2
                (natInsert (t.max_pk + 1) row1 t.data) },
    row1, row2, ?_, ?_, ?_, hget1, by simpa using hget2,
    Nat.lt_succ_self (t.max_pk + 1), rfl⟩
  · rw [hsplit, h1]
    simpa using h2
  · rw [natFind_natInsert_ne _ _ (by omega)]
    exact natFind_natInsert_self _ _ _
  · exact natFind_natInsert_self _ _ _

/-- Witness for C6 at a concrete table with a declared primary key and an
insert through a column list omitting it. -/
theorem C6_insert_surrogate_keys_witness :
    ∃ t' row1 row2,
      cw6tbl.insert [[LiteralValue.Text "Bar1"], [LiteralValue.Text "Bar2"]]
          (some cw6names) = some t'
      ∧ natFind (cw6tbl.max_pk + 1) t'.data = some row1
      ∧ natFind (cw6tbl.max_pk + 2) t'.data = some row2
      ∧ row1[0]? = some (.Integer (Int.ofNat (cw6tbl.max_pk + 1)))
      ∧ row2[0]? = some (.Integer (Int.ofNat (cw6tbl.max_pk + 2)))
      ∧ cw6tbl.max_pk + 1 < cw6tbl.max_pk + 2
      ∧ t'.max_pk = cw6tbl.max_pk + 2 :=
  C6_insert_surrogate_keys cw6tbl 0 cw6names
    [LiteralValue.Text "Bar1"] [LiteralValue.Text "Bar2"]
    rfl (by decide) rfl rfl
    (by
      intro n hn
      simp [cw6names] at hn
      subst hn
      exact ⟨1, rfl, by decide⟩)

/-! ### Claim C2 -/

theorem sum_map_length_const {β : Type} (l : List β) (n : Nat) :
    (l.map (fun _ => n)).sum = l.length * n := by
  induction l with
  | nil => simp
  | cons x xs ih => simp [ih, Nat.succ_mul, Nat.add_comm]

/-- C2: an Asterisk SELECT naming two stored tables (in that order) with no
WHERE clause produces their full left-to-right cross product — exactly
`m * n` rows, each the concatenation of a row of the first table followed
by a row of the second, of width equal to the sum of the two header
widths. -/
theorem C2_select_cross_join (db : Rusql) (n1 n2 : String) (t1 t2 : Table)
    (h1 : db.get_table n1 = some t1) (h2 : db.get_table n2 = some t2)
    (w1 : t1.SizeOK) (w2 : t2.SizeOK) :
    ∃ res, select db ⟨.Asterisk, some [n1, n2], none⟩ = some res
      ∧ res.rows = (t1.rows.map (fun r1 => t2.rows.map (fun r2 => r1 ++ r2))).flatten
      ∧ res.rows.length = t1.rows.length * t2.rows.length
      ∧ ∀ r ∈ res.rows, r.length = t1.header.length + t2.header.length := by
  have h12 : List.mapM (fun n => db.get_table n) [n1, n2] = some [t1, t2] := by
    rw [List.mapM_cons, h1]
    simp only [Option.bind_eq_bind, Option.some_bind]
    rw [List.mapM_cons, h2]
    simp only [Option.bind_eq_bind, Option.some_bind]
    rfl
  obtain ⟨ip, hprod, hgood, hrows_ip, hhd_ip⟩ :=
    product_two_tables t1 t2
      (Table.new_result_table (([t1, t2].map Table.header).flatten))
      (accGood_new_result_table _)
  have hrows_ip' : ip.rows
      = (t1.rows.map (fun r1 => t2.rows.map (fun r2 => r1 ++ r2))).flatten := by
    rw [hrows_ip]
    simp [Table.rows, Table.new_result_table]
  have hgi : generate_inputs db ⟨.Asterisk, some [n1, n2], none⟩
      = some ([t1, t2], ip) := by
    have hgi0 : generate_inputs db ⟨.Asterisk, some [n1, n2], none⟩ =
        (List.mapM (fun n => db.get_table n) [n1, n2]).bind (fun input_tables =>
          (product input_tables
            (Table.new_result_table ((input_tables.map Table.header).flatten))
            none).bind
          (fun ip2 => some (input_tables, ip2))) := rfl
    rw [hgi0, h12]
    simp only [Option.some_bind]
    rw [hprod]
    rfl
  obtain ⟨res, hrs, hres_rows⟩ :=
    generate_result_set_asterisk ip [t1, t2] (some [n1, n2]) none
  have hsel : select db ⟨.Asterisk, some [n1, n2], none⟩ = some res := by
    have hsel0 : select db ⟨.Asterisk, some [n1, n2], none⟩ =
        (generate_inputs db ⟨.Asterisk, some [n1, n2], none⟩).bind
          (fun p =>
            (filter_inputs p.2 p.1 ⟨.Asterisk, some [n1, n2], none⟩).bind
            (fun ip2 => generate_result_set ip2 p.1 ⟨.Asterisk, some [n1, n2], none⟩)) := rfl
    rw [hsel0, hgi]
    simp only [Option.some_bind]
    exact hrs
  have hrows : res.rows
      = (t1.rows.map (fun r1 => t2.rows.map (fun r2 => r1 ++ r2))).flatten := by
    rw [hres_rows, hrows_ip']
  refine ⟨res, hsel, hrows, ?_, ?_⟩
  · rw [hrows]
    rw [List.length_flatten, List.map_map]
    have : (List.length ∘ fun r1 => List.map (fun r2 => r1 ++ r2) t2.rows)
        = fun _ => t2.rows.length := by
      funext r1
      simp
    rw [this, sum_map_length_const]
  · intro r hr
    rw [hrows] at hr
    rcases List.mem_flatten.mp hr with ⟨inner, hinner, hrin⟩
    rcases List.mem_map.mp hinner with ⟨r1, hr1, rfl⟩
    rcases List.mem_map.mp hrin with ⟨r2, hr2, rfl⟩
    rcases Table.mem_rows.mp hr1 with ⟨k1, hk1⟩
    rcases Table.mem_rows.mp hr2 with ⟨k2, hk2⟩
    have l1 : r1.length = t1.header.length := w1 (k1, r1) hk1
    have l2 : r2.length = t2.header.length := w2 (k2, r2) hk2
    simp [l1, l2]

def cw2foo : Table :=
  { name := "Foo"
    header := [{ name := "FId", column_type := some .Integer,
                 column_constraints := [] },
               { name := "FName", column_type := some .Text,
                 column_constraints := [] }]
    data := [(1, [LiteralValue.Integer 1, LiteralValue.Text "Bar1"]),
             (2, [LiteralValue.Integer 2, LiteralValue.Text "Bar2"])]
    pk := none
    max_pk := 2 }

def cw2yarp : Table :=
  { name := "Yarp"
    header := [{ name := "YId", column_type := some .Integer,
                 column_constraints := [] }]
    data := [(1, [LiteralValue.Integer 10]),
             (2, [LiteralValue.Integer 20]),
             (3, [LiteralValue.Integer 30])]
    pk := none
    max_pk := 3 }

def cw2db : Rusql := { map := [("Foo", cw2foo), ("Yarp", cw2yarp)] }

/-- Witness for C2 at a concrete pair of stored tables (2 × 3 rows). -/
theorem C2_select_cross_join_witness :
    ∃ res, select cw2db ⟨.Asterisk, some ["Foo", "Yarp"], none⟩ = some res
      ∧ res.rows = (cw2foo.rows.map
          (fun r1 => cw2yarp.rows.map (fun r2 => r1 ++ r2))).flatten
      ∧ res.rows.length = cw2foo.rows.length * cw2yarp.rows.length
      ∧ ∀ r ∈ res.rows,
          r.length = cw2foo.header.length + cw2yarp.header.length :=
  C2_select_cross_join cw2db "Foo" "Yarp" cw2foo cw2yarp rfl rfl
    (by decide) (by decide)

/-! ### Claim C1 -/

/-- Whether a statement is a `Select`. -/
def RusqlStatement.isSelect : RusqlStatement → Bool
  | .Select _ => true
  | _ => false

/-- In-order execution of a statement list against the catalog, one
`exec_stmt` dispatch per statement. -/
def execAll (db : Rusql) : List RusqlStatement → Option Rusql
  | [] => some db
  | s :: rest => (exec_stmt db s).bind (fun db1 => execAll db1 rest)

/-- C1 (as the code behaves): `rusql_exec` executes the statements before
the first `Select` in order against the shared catalog, and on reaching the
`Select` immediately returns its materialized result table; the statements
after the first `Select` are not executed — the right-hand side does not
depend on `rest`. -/
theorem C1_first_select_returns (db : Rusql) (pre rest : List RusqlStatement)
    (sd : SelectDef) (hpre : ∀ s ∈ pre, s.isSelect = false) :
    rusql_exec db (pre ++ RusqlStatement.Select sd :: rest)
      = (execAll db pre).bind
          (fun db1 => (select db1 sd).map (fun t => (db1, some t))) := by
  revert hpre
  induction pre generalizing db with
  | nil =>
    intro _
    simp [rusql_exec, execAll]
  | cons s pre ih =>
    intro hpre
    have hrest : ∀ x ∈ pre, x.isSelect = false := fun x hx => hpre x (by simp [hx])
    cases s with
    | Select d =>
      have := hpre (.Select d) (by simp)
      simp [RusqlStatement.isSelect] at this
    | AlterTable d =>
      cases h : alter_table db d with
      | none => simp [rusql_exec, execAll, exec_stmt, h]
      | some db1 =>
        simp only [List.cons_append, rusql_exec, execAll, exec_stmt, h,
          Option.bind_eq_bind, Option.some_bind]
        exact ih db1 hrest
    | CreateTable d =>
      simp only [List.cons_append, rusql_exec, execAll, exec_stmt,
        Option.bind_eq_bind, Option.some_bind]
      exact ih (db.create_table d) hrest
    | Delete d =>
      cases h : delete db d with
      | none => simp [rusql_exec, execAll, exec_stmt, h]
      | some db1 =>
        simp only [List.cons_append, rusql_exec, execAll, exec_stmt, h,
          Option.bind_eq_bind, Option.some_bind]
        exact ih db1 hrest
    | DropTable d =>
      simp only [List.cons_append, rusql_exec, execAll, exec_stmt,
        Option.bind_eq_bind, Option.some_bind]
      exact ih (db.drop_table d.name) hrest
    | Insert d =>
      cases h : insert_stmt db d with
      | none => simp [rusql_exec, execAll, exec_stmt, h]
      | some db1 =>
        simp only [List.cons_append, rusql_exec, execAll, exec_stmt, h,
          Option.bind_eq_bind, Option.some_bind]
        exact ih db1 hrest
    | Update d =>
      cases h : update db d with
      | none => simp [rusql_exec, execAll, exec_stmt, h]
      | some db1 =>
        simp only [List.cons_append, rusql_exec, execAll, exec_stmt, h,
          Option.bind_eq_bind, Option.some_bind]
        exact ih db1 hrest

def cx1fooDef : TableDef :=
  { table_name := "Foo"
    columns := [{ name := "Id", column_type := some .Integer,
                  column_constraints := [] }]
    if_not_exists := false }

def cx1barDef : TableDef :=
  { table_name := "Bar"
    columns := [{ name := "Id", column_type := some .Integer,
                  column_constraints := [] }]
    if_not_exists := false }

def cx1stmts : List RusqlStatement :=
  [ .CreateTable cx1fooDef,
    .Select ⟨.Asterisk, none, none⟩,
    .CreateTable cx1barDef ]

/-- Counterexample to C1 as stated: in the batch `CREATE Foo; SELECT;
CREATE Bar;` the statement after the `Select` is never executed — `Bar` is
absent from the resulting catalog even though the `Select`'s result table
was produced and returned. -/
theorem C1_counterexample :
    (rusql_exec Rusql.new cx1stmts).map
      (fun p => ((p.1.get_table "Bar").isSome, p.2.isSome))
      = some (false, true) := by
  rfl

/-- Witness for C1's amended statement at a concrete batch. -/
theorem C1_first_select_returns_witness :
    rusql_exec Rusql.new
        ([RusqlStatement.CreateTable cx1fooDef]
          ++ RusqlStatement.Select ⟨.Asterisk, none, none⟩
              :: [RusqlStatement.CreateTable cx1barDef])
      = (execAll Rusql.new [RusqlStatement.CreateTable cx1fooDef]).bind
          (fun db1 => (select db1 ⟨.Asterisk, none, none⟩).map
            (fun t => (db1, some t))) :=
  C1_first_select_returns Rusql.new [RusqlStatement.CreateTable cx1fooDef]
    [RusqlStatement.CreateTable cx1barDef] ⟨.Asterisk, none, none⟩
    (by
      intro s hs
      simp at hs
      subst hs
      rfl)

/-! ### Claim C7 -/

/-- Every table stored in the catalog satisfies the width invariant. -/
def Rusql.WF (db : Rusql) : Prop :=
  ∀ p ∈ db.map, Table.SizeOK p.2

/-- The per-statement width proviso: rows handed to INSERT without a column
list, and rows coming out of an INSERT-from-SELECT, must already match the
destination header's width (the engine never validates this itself). -/
def StmtWidthOK (db : Rusql) : RusqlStatement → Prop
  | .Insert d =>
      (match d.data_source with
       | .Values rows =>
           d.column_names = none →
             ∀ t, db.get_table d.table_name = some t →
               ∀ r ∈ rows, r.length = t.header.length
       | .Select sd =>
           ∀ t res, db.get_table d.table_name = some t → select db sd = some res →
             ∀ r ∈ res.rows, r.length = t.header.length
       | _ => True)
  | _ => True

/-- A statement sequence executed step by step through `exec_stmt`, each
step satisfying the width proviso. -/
inductive ExecSeq : Rusql → List RusqlStatement → Rusql → Prop
  | nil (db : Rusql) : ExecSeq db [] db
  | cons {db db1 db2 : Rusql} {s : RusqlStatement} {ss : List RusqlStatement} :
      StmtWidthOK db s → exec_stmt db s = some db1 → ExecSeq db1 ss db2 →
      ExecSeq db (s :: ss) db2

theorem strFind_mem {α : Type} {k : String} {v : α} :
    ∀ {l : List (String × α)}, strFind k l = some v → (k, v) ∈ l := by
  intro l
  induction l with
  | nil => intro h; simp [strFind] at h
  | cons p rest ih =>
    intro h
    obtain ⟨k', v'⟩ := p
    by_cases hk : k = k'
    · subst hk
      simp [strFind] at h
      simp [h]
    · simp only [strFind, if_neg hk] at h
      exact List.mem_cons_of_mem _ (ih h)

theorem WF_get {db : Rusql} {nm : String} {t : Table}
    (hwf : db.WF) (h : db.get_table nm = some t) : t.SizeOK :=
  hwf (nm, t) (strFind_mem h)

theorem WF_put {db : Rusql} {nm : String} {t : Table}
    (hwf : db.WF) (ht : t.SizeOK) : (db.put_table nm t).WF := by
  intro p hp
  rcases mem_strInsert hp with rfl | hp
  · exact ht
  · exact hwf p hp

theorem add_column_sizeok {t : Table} {cd : ColumnDef} (h : t.SizeOK) :
    (t.add_column cd).SizeOK := by
  intro p hp
  simp only [Table.add_column] at hp ⊢
  rcases List.mem_map.mp hp with ⟨⟨k, r⟩, hm, rfl⟩
  have := h (k, r) hm
  simp [this]

theorem delete_where_subset {t t' : Table} {f : TableRow → Option Bool}
    (h : t.delete_where f = some t') :
    t'.header = t.header ∧ ∀ p ∈ t'.data, p ∈ t.data := by
  unfold Table.delete_where at h
  cases hk : keepRows f t.data with
  | none => rw [hk] at h; simp at h
  | some kept =>
    rw [hk] at h
    simp only [Option.bind_eq_bind, Option.some_bind, Option.pure_def,
      Option.some.injEq] at h
    subst h
    exact ⟨rfl, fun p hp => ((keepRows_mem hk p).mp hp).1⟩

theorem foldlM_some_step {α β : Type} {f : β → α → Option β} {a : α}
    {l : List α} {b b' : β} (h : (a :: l).foldlM f b = some b') :
    ∃ b1, f b a = some b1 ∧ l.foldlM f b1 = some b' := by
  rw [List.foldlM_cons] at h
  cases hf : f b a with
  | none => rw [hf] at h; simp at h
  | some b1 =>
    rw [hf] at h
    simp only [Option.bind_eq_bind, Option.some_bind] at h
    exact ⟨b1, rfl, h⟩

theorem mapM_some_bwd {α β : Type} {f : α → Option β} :
    ∀ {l : List α} {l' : List β}, l.mapM f = some l' →
      ∀ y ∈ l', ∃ x ∈ l, f x = some y := by
  intro l
  induction l with
  | nil =>
    intro l' h y hy
    have h2 : some ([] : List β) = some l' := h
    injection h2 with h3
    subst h3
    simp at hy
  | cons a rest ih =>
    intro l' h y hy
    rw [List.mapM_cons] at h
    cases hf : f a with
    | none => rw [hf] at h; simp at h
    | some y0 =>
      rw [hf] at h
      simp only [Option.bind_eq_bind, Option.some_bind] at h
      cases hm : rest.mapM f with
      | none => rw [hm] at h; simp at h
      | some ys =>
        rw [hm] at h
        simp only [Option.some_bind, Option.pure_def, Option.some.injEq] at h
        subst h
        rcases List.mem_cons.mp hy with rfl | hy
        · exact ⟨a, by simp, hf⟩
        · obtain ⟨x, hx, hfy⟩ := ih hm y hy
          exact ⟨x, by simp [hx], hfy⟩

/-- From `Table::insert` preserves the width invariant, provided rows passed
without a column list are already header-width. -/
theorem insert_sizeok :
    ∀ {column_data : List TableRow} {t t' : Table} {cols : Option (List String)},
      t.insert column_data cols = some t' → t.SizeOK →
      (cols = none → ∀ r ∈ column_data, r.length = t.header.length) →
      t'.SizeOK ∧ t'.header = t.header := by
  intro column_data
  induction column_data with
  | nil =>
    intro t t' cols h hs _
    have h2 : some t = some t' := h
    injection h2 with h3
    subst h3
    exact ⟨hs, rfl⟩
  | cons cd rest ih =>
    intro t t' cols h hs hwid
    unfold Table.insert at h
    obtain ⟨t1, hf, hrest⟩ := foldlM_some_step h
    have hstep : t1.SizeOK ∧ t1.header = t.header := by
      cases cols with
      | none =>
        have hf' : t.push_row cd = some t1 := hf
        obtain ⟨hh, -, -, -⟩ := push_row_frame hf'
        exact ⟨push_row_sizeok hf' hs (hwid rfl cd (by simp)), hh⟩
      | some names =>
        have hf' : (if names.length = cd.length then
            (t.scatter (names.zip cd)
              (List.replicate t.header.length LiteralValue.Null)).bind
              (fun row =>
                match t.pk with
                | some i => (row.get? i).bind (fun c =>
                    (some (if c = LiteralValue.Null
                           then row.set i (LiteralValue.Integer (Int.ofNat (t.max_pk + 1)))
                           else row)).bind (fun row => t.push_row row))
                | none => (some row).bind (fun row => t.push_row row))
          else none) = some t1 := hf
        by_cases hg : names.length = cd.length
        · rw [if_pos hg] at hf'
          obtain ⟨row1, hsc, hbr⟩ := Option.bind_eq_some.mp hf'
          have hlen1 : row1.length = t.header.length := by
            have := scatter_length hsc
            simpa using this
          cases hpk : t.pk with
          | none =>
            rw [hpk] at hbr
            simp only [Option.some_bind] at hbr
            obtain ⟨hh, -, -, -⟩ := push_row_frame hbr
            exact ⟨push_row_sizeok hbr hs hlen1, hh⟩
          | some i =>
            rw [hpk] at hbr
            obtain ⟨c, hc, hbr2⟩ := Option.bind_eq_some.mp hbr
            simp only [Option.some_bind] at hbr2
            have hlen2 : (if c = LiteralValue.Null
                then row1.set i (LiteralValue.Integer (Int.ofNat (t.max_pk + 1)))
                else row1).length = t.header.length := by
              by_cases hcn : c = LiteralValue.Null <;> simp [hcn, hlen1]
            obtain ⟨hh, -, -, -⟩ := push_row_frame hbr2
            exact ⟨push_row_sizeok hbr2 hs hlen2, hh⟩
        · rw [if_neg hg] at hf'
          simp at hf'
    have hrest' : Table.insert t1 rest cols = some t' := hrest
    obtain ⟨hs', hh'⟩ := ih hrest' hstep.1
      (fun hc r hr => by rw [hstep.2]; exact hwid hc r (by simp [hr]))
    exact ⟨hs', hh'.trans hstep.2⟩

/-- Pushing a list of header-width rows preserves the width invariant. -/
theorem fold_push_sizeok :
    ∀ {rows : List (PkType × TableRow)} {t t' : Table},
      rows.foldlM (fun t kr => t.push_row kr.2) t = some t' → t.SizeOK →
      (∀ kr ∈ rows, kr.2.length = t.header.length) →
      t'.SizeOK ∧ t'.header = t.header := by
  intro rows
  induction rows with
  | nil =>
    intro t t' h hs _
    have h2 : some t = some t' := h
    injection h2 with h3
    subst h3
    exact ⟨hs, rfl⟩
  | cons kr rest ih =>
    intro t t' h hs hwid
    obtain ⟨t1, hf, hrest⟩ := foldlM_some_step h
    obtain ⟨hh, -, -, -⟩ := push_row_frame hf
    have hs1 : t1.SizeOK := push_row_sizeok hf hs (hwid kr (by simp))
    obtain ⟨hs', hh'⟩ := ih hrest hs1
      (fun q hq => by rw [hh]; exact hwid q (by simp [hq]))
    exact ⟨hs', hh'.trans hh⟩

/-- From `update` preserves the catalog width invariant. -/
theorem update_sizeok {db db' : Rusql} {d : UpdateDef}
    (h : update db d = some db') (hwf : db.WF) : db'.WF := by
  have h0 : update db d =
      (db.get_table d.name).bind (fun table =>
        (table.data.mapM (fun (kr : PkType × TableRow) =>
          match d.where_expr with
          | some e =>
              (eval_bool kr.2 table.header none e).bind (fun b =>
                if b
                then (applySet table.header d.set kr.2).bind
                  (fun r => some (kr.1, r))
                else some kr)
          | none =>
              (applySet table.header d.set kr.2).bind
                (fun r => some (kr.1, r)))).bind
        (fun newData =>
          some (db.put_table d.name { table with data := newData }))) := rfl
  rw [h0] at h
  obtain ⟨t, hget, h2⟩ := Option.bind_eq_some.mp h
  obtain ⟨nd, hmap, h3⟩ := Option.bind_eq_some.mp h2
  have hdb' : db' = db.put_table d.name { t with data := nd } := by
    injection h3 with h4
    exact h4.symm
  subst hdb'
  apply WF_put hwf
  intro p hp
  obtain ⟨x, hx, hfx⟩ := mapM_some_bwd hmap p hp
  have hxlen : x.2.length = t.header.length := WF_get hwf hget x hx
  show p.2.length = t.header.length
  cases hwe : d.where_expr with
  | none =>
    rw [hwe] at hfx
    obtain ⟨r, happ, heq⟩ := Option.bind_eq_some.mp hfx
    injection heq with heq'
    rw [← heq']
    have := applySet_length happ
    simp [this, hxlen]
  | some e =>
    rw [hwe] at hfx
    obtain ⟨b, hb, hrest2⟩ := Option.bind_eq_some.mp hfx
    cases b with
    | false =>
      simp only [Bool.false_eq_true, if_neg (by simp : ¬False)] at hrest2
      injection hrest2 with heq'
      rw [← heq']
      exact hxlen
    | true =>
      simp only [if_true] at hrest2
      obtain ⟨r, happ, heq⟩ := Option.bind_eq_some.mp hrest2
      injection heq with heq'
      rw [← heq']
      have := applySet_length happ
      simp [this, hxlen]

/-- One executed statement preserves the catalog width invariant, under the
width proviso. -/
theorem exec_stmt_WF {db db' : Rusql} {s : RusqlStatement}
    (hwf : db.WF) (hok : StmtWidthOK db s) (h : exec_stmt db s = some db') :
    db'.WF := by
  cases s with
  | AlterTable d =>
    have h' : alter_table db d = some db' := h
    cases hm : d.mode with
    | RenameTo new_name =>
      unfold alter_table at h'
      rw [hm] at h'
      have h'' : db.rename_table d.name new_name = some db' := h'
      unfold Rusql.rename_table at h''
      cases hf : strFind d.name db.map with
      | none => rw [hf] at h''; simp at h''
      | some tbl =>
        rw [hf] at h''
        injection h'' with h3
        subst h3
        intro p hp
        rcases mem_strInsert hp with rfl | hp
        · exact hwf (d.name, tbl) (strFind_mem hf)
        · exact hwf p (mem_strRemove hp)
    | AddColumn cd =>
      unfold alter_table at h'
      rw [hm] at h'
      have h'' : (db.get_table d.name).bind
          (fun t => some (db.put_table d.name (t.add_column cd))) = some db' := h'
      obtain ⟨t, hget, heq⟩ := Option.bind_eq_some.mp h''
      injection heq with h3
      subst h3
      exact WF_put hwf (add_column_sizeok (WF_get hwf hget))
  | CreateTable d =>
    have h' : some (db.create_table d) = some db' := h
    injection h' with h3
    subst h3
    unfold Rusql.create_table
    by_cases hif : (d.if_not_exists && (strFind d.table_name db.map).isSome) = true
    · rw [if_pos hif]
      exact hwf
    · rw [if_neg hif]
      intro p hp
      rcases mem_strInsert hp with rfl | hp
      · intro q hq
        simp [Table.new] at hq
      · exact hwf p hp
  | Delete d =>
    have h' : delete db d = some db' := h
    unfold delete at h'
    obtain ⟨t, hget, h2⟩ := Option.bind_eq_some.mp h'
    cases hwe : d.where_expr with
    | some e =>
      rw [hwe] at h2
      obtain ⟨t2, hdw, h3⟩ := Option.bind_eq_some.mp h2
      injection h3 with h4
      subst h4
      obtain ⟨hh, hsub⟩ := delete_where_subset hdw
      refine WF_put hwf ?_
      intro p hp
      rw [hh]
      exact WF_get hwf hget p (hsub p hp)
    | none =>
      rw [hwe] at h2
      injection h2 with h4
      subst h4
      refine WF_put hwf ?_
      intro p hp
      simp [Table.clear] at hp
  | DropTable d =>
    have h' : some (db.drop_table d.name) = some db' := h
    injection h' with h3
    subst h3
    intro p hp
    exact hwf p (mem_strRemove hp)
  | Insert d =>
    have h' : insert_stmt db d = some db' := h
    cases hds : d.data_source with
    | Values rows =>
      have hok' : StmtWidthOK db (.Insert d) := hok
      simp only [StmtWidthOK, hds] at hok'
      unfold insert_stmt at h'
      rw [hds] at h'
      obtain ⟨t, hget, h2⟩ := Option.bind_eq_some.mp h'
      obtain ⟨t2, hins, h3⟩ := Option.bind_eq_some.mp h2
      injection h3 with h4
      subst h4
      refine WF_put hwf ?_
      exact (insert_sizeok hins (WF_get hwf hget)
        (fun hc r hr => hok' hc t hget r hr)).1
    | Select sd =>
      have hok' : StmtWidthOK db (.Insert d) := hok
      simp only [StmtWidthOK, hds] at hok'
      unfold insert_stmt at h'
      rw [hds] at h'
      obtain ⟨res, hsel, h2⟩ := Option.bind_eq_some.mp h'
      obtain ⟨t, hget, h3⟩ := Option.bind_eq_some.mp h2
      obtain ⟨t2, hfold, h4⟩ := Option.bind_eq_some.mp h3
      injection h4 with h5
      subst h5
      refine WF_put hwf ?_
      refine (fold_push_sizeok hfold (WF_get hwf hget) ?_).1
      intro kr hkr
      exact hok' t res hget hsel kr.2 (Table.mem_rows.mpr ⟨kr.1, hkr⟩)
    | DefaultValues =>
      unfold insert_stmt at h'
      rw [hds] at h'
      injection h' with h3
      subst h3
      exact hwf
    | Error =>
      unfold insert_stmt at h'
      rw [hds] at h'
      injection h' with h3
      subst h3
      exact hwf
  | Select d =>
    have h' : (select db d).map (fun _ => db) = some db' := h
    rcases Option.map_eq_some'.mp h' with ⟨t, -, heq⟩
    subst heq
    exact hwf
  | Update d => exact update_sizeok h hwf

/-- C7 (as the code behaves): provided every row handed to INSERT without a
column list (and every INSERT-from-SELECT result row) is already
header-width, every table in the catalog keeps `row.length =
header.length` across any sequence of executed statements; and
`add_column` maintains the invariant by appending `Null` to every existing
row.  (Without the proviso the invariant is not enforced — see the
counterexample.) -/
theorem C7_width_invariant :
    (∀ db ss db', Rusql.WF db → ExecSeq db ss db' → Rusql.WF db')
  ∧ (∀ (t : Table) (cd : ColumnDef),
      (t.add_column cd).header = t.header ++ [cd]
      ∧ (t.add_column cd).data
          = t.data.map (fun kr => (kr.1, kr.2 ++ [LiteralValue.Null]))
      ∧ (t.SizeOK → (t.add_column cd).SizeOK)) := by
  constructor
  · intro db ss db' hwf hseq
    revert hwf
    induction hseq with
    | nil => intro hwf; exact hwf
    | cons hok hstep htail ih =>
      intro hwf
      exact ih (exec_stmt_WF hwf hok hstep)
  · intro t cd
    exact ⟨rfl, rfl, add_column_sizeok⟩

def cw7def : TableDef :=
  { table_name := "T7"
    columns := [{ name := "A", column_type := none, column_constraints := [] }]
    if_not_exists := false }

/-- Witness for C7's preservation part at a concrete executed sequence. -/
theorem C7_width_invariant_witness :
    Rusql.WF (Rusql.new.create_table cw7def) :=
  C7_width_invariant.1 Rusql.new [.CreateTable cw7def]
    (Rusql.new.create_table cw7def)
    (by intro p hp; simp [Rusql.new] at hp)
    (ExecSeq.cons trivial rfl (ExecSeq.nil _))

def cx7def : TableDef :=
  { table_name := "T"
    columns := [{ name := "A", column_type := none, column_constraints := [] }]
    if_not_exists := false }

def cx7stmts : List RusqlStatement :=
  [ .CreateTable cx7def,
    .Insert ⟨"T", none, .Values [[.Integer 1, .Integer 2]]⟩ ]

/-- Counterexample to C7 as stated: executing `CREATE TABLE T(A); INSERT
INTO T VALUES(1, 2);` stores a row of width 2 in a table whose header has
width 1 — no operation validates the width, so the invariant is violated by
a reachable engine state. -/
theorem C7_counterexample :
    (rusql_exec Rusql.new cx7stmts).map
      (fun p => (p.1.get_table "T").map
        (fun t => (decide t.SizeOK, t.header.length, t.rows.map List.length)))
      = some (some (false, 1, [2])) := by
  rfl
